import Mathlib

/-!
# test-app: server (`server.go`) and sender (`main.go`)

A shallow embedding of the two Go programs of the repository, and the
properties of the specification checked against it.

Conventions of the embedding.

* A Go `[]byte`, and a Go `string` whose bytes matter (`text`, `hex`), is a
  `List (Fin 256)`.  Go strings that are only carried around or compared
  (protocol tag, addresses, path, method, error messages) are Lean strings.
* The standard logger is a list of lines written so far; `time.Now()` is a
  function of the number of lines already written.
* The Go standard library functions the programs call (`hex.EncodeToString`,
  `strings.TrimSpace`, `utf8.DecodeRuneInString`, `bufio.Scanner` with
  `bufio.ScanLines`, ...) are transcribed from the Go sources.
-/

namespace TestApp

/-! ## Bytes -/

/-- One Go `byte`. -/
abbrev Byte := Fin 256

/-- A Go byte slice, or a Go string seen as its bytes. -/
abbrev Bytes := List Byte

/-- The bytes of an ASCII string literal. -/
def ascii (s : String) : Bytes := s.toList.map (fun c => Fin.ofNat c.toNat)

/-! ## `encoding/hex` -/

/-- Go `hextable = "0123456789abcdef"`. -/
def hextable : Bytes := ascii "0123456789abcdef"

/-- Go `hex.EncodeToString`: each byte `v` gives `hextable[v>>4]`, `hextable[v&0x0f]`. -/
def EncodeToString : Bytes → Bytes
  | [] => []
  | v :: rest =>
    hextable.getD (v.val >>> 4) 0 :: hextable.getD (v.val &&& 0x0f) 0 :: EncodeToString rest

/-- Go `reverseHexTable`: the value of a hex digit, `0xff` for any other byte. -/
def reverseHexTable (c : Byte) : Nat :=
  if 0x30 ≤ c.val ∧ c.val ≤ 0x39 then c.val - 0x30
  else if 0x61 ≤ c.val ∧ c.val ≤ 0x66 then c.val - 0x61 + 10
  else if 0x41 ≤ c.val ∧ c.val ≤ 0x46 then c.val - 0x41 + 10
  else 0xff

/-- Go `hex.DecodeString`; `none` stands for either error (`InvalidByteError`, `ErrLength`). -/
def DecodeString : Bytes → Option Bytes
  | [] => some []
  | [_] => none
  | p :: q :: rest =>
    let a := reverseHexTable p
    let b := reverseHexTable q
    if a > 0x0f then none
    else if b > 0x0f then none
    else (DecodeString rest).map (fun dst => Fin.ofNat ((a <<< 4) ||| b) :: dst)

/-! ## `unicode/utf8` and `unicode` -/

/-- Go `utf8.RuneError`. -/
def RuneError : Nat := 0xFFFD

/-- Go `utf8.RuneSelf`. -/
def RuneSelf : Nat := 0x80

/-- Go `utf8.UTFMax`. -/
def UTFMax : Nat := 4

/-- Go `utf8.first`: information about the first byte of an encoding.
`0xF0` is ASCII, `0xF1` is invalid, otherwise the low three bits are the
size and the high four bits an index into `acceptRanges`. -/
def first (b : Byte) : Nat :=
  if b.val < 0x80 then 0xF0
  else if b.val < 0xC2 then 0xF1
  else if b.val < 0xE0 then 0x02
  else if b.val = 0xE0 then 0x13
  else if b.val < 0xED then 0x03
  else if b.val = 0xED then 0x23
  else if b.val < 0xF0 then 0x03
  else if b.val = 0xF0 then 0x34
  else if b.val < 0xF4 then 0x04
  else if b.val = 0xF4 then 0x44
  else 0xF1

/-- Go `utf8.acceptRanges`: the range `(lo, hi)` allowed for the second byte. -/
def acceptRanges (i : Nat) : Nat × Nat :=
  match i with
  | 0 => (0x80, 0xBF)
  | 1 => (0xA0, 0xBF)
  | 2 => (0x80, 0x9F)
  | 3 => (0x90, 0xBF)
  | 4 => (0x80, 0x8F)
  | _ => (0, 0)

/-- Go `utf8.DecodeRuneInString`: the first rune of `s` and its width in
bytes; `(RuneError, 1)` for an invalid encoding, `(RuneError, 0)` for the
empty string. -/
def DecodeRuneInString (s : Bytes) : Nat × Nat :=
  match s with
  | [] => (RuneError, 0)
  | s0 :: rest =>
    let x := first s0
    if x ≥ 0xF0 then
      (if x = 0xF1 then RuneError else s0.val, 1)
    else
      let sz := x &&& 7
      let accept := acceptRanges (x >>> 4)
      if s.length < sz then (RuneError, 1)
      else
        match rest with
        | [] => (RuneError, 1)
        | s1 :: rest1 =>
          if s1.val < accept.1 ∨ accept.2 < s1.val then (RuneError, 1)
          else if sz ≤ 2 then (((s0.val &&& 0x1F) <<< 6) ||| (s1.val &&& 0x3F), 2)
          else
            match rest1 with
            | [] => (RuneError, 1)
            | s2 :: rest2 =>
              if s2.val < 0x80 ∨ 0xBF < s2.val then (RuneError, 1)
              else if sz ≤ 3 then
                (((s0.val &&& 0x0F) <<< 12) ||| ((s1.val &&& 0x3F) <<< 6) ||| (s2.val &&& 0x3F), 3)
              else
                match rest2 with
                | [] => (RuneError, 1)
                | s3 :: _ =>
                  if s3.val < 0x80 ∨ 0xBF < s3.val then (RuneError, 1)
                  else
                    (((s0.val &&& 0x07) <<< 18) ||| ((s1.val &&& 0x3F) <<< 12)
                      ||| ((s2.val &&& 0x3F) <<< 6) ||| (s3.val &&& 0x3F), 4)

/-- Go `utf8.RuneStart`. -/
def RuneStart (b : Byte) : Bool := (b.val &&& 0xC0) != 0x80

/-- The backward scan of `utf8.DecodeLastRuneInString`:
`for start--; start >= lim; start-- { if RuneStart(s[start]) { break } }`,
entered with `start` already decremented. -/
def scanBack (s : Bytes) (lim : Int) : Nat → Int → Int
  | 0, start => start
  | k + 1, start =>
    if start ≥ lim then
      if RuneStart (s.getD start.toNat 0) then start else scanBack s lim k (start - 1)
    else start

/-- Go `utf8.DecodeLastRuneInString`. -/
def DecodeLastRuneInString (s : Bytes) : Nat × Nat :=
  let e := s.length
  if e = 0 then (RuneError, 0)
  else
    let r := (s.getD (e - 1) 0).val
    if r < RuneSelf then (r, 1)
    else
      let lim : Int := if (e : Int) - UTFMax < 0 then 0 else (e : Int) - UTFMax
      let start := scanBack s lim UTFMax ((e : Int) - 1 - 1)
      let start : Nat := if start < 0 then 0 else start.toNat
      let (r, size) := DecodeRuneInString (s.drop start)
      if start + size ≠ e then (RuneError, 1) else (r, size)

/-- Go `unicode.IsSpace`: the Latin-1 switch, then the `White_Space` table. -/
def IsSpace (r : Nat) : Bool :=
  if r ≤ 0xFF then
    r = 0x09 ∨ r = 0x0A ∨ r = 0x0B ∨ r = 0x0C ∨ r = 0x0D ∨ r = 0x20 ∨ r = 0x85 ∨ r = 0xA0
  else
    r = 0x1680 ∨ (0x2000 ≤ r ∧ r ≤ 0x200a) ∨ r = 0x2028 ∨ r = 0x2029 ∨ r = 0x202f
      ∨ r = 0x205f ∨ r = 0x3000

/-! ## `strings` -/

/-- Go `strings.asciiSpace`. -/
def asciiSpace (c : Byte) : Bool :=
  c.val = 0x09 ∨ c.val = 0x0A ∨ c.val = 0x0B ∨ c.val = 0x0C ∨ c.val = 0x0D ∨ c.val = 0x20

/-- The loop of Go `strings.indexFunc`, `for i, r := range s`, at offset `i`
with `s` the bytes from `i` on; the first argument bounds the iterations. -/
def indexFuncAux (f : Nat → Bool) (truth : Bool) : Nat → Nat → Bytes → Option Nat
  | 0, _, _ => none
  | fuel + 1, i, s =>
    match s with
    | [] => none
    | _ :: _ =>
      let (r, w) := DecodeRuneInString s
      if f r = truth then some i else indexFuncAux f truth fuel (i + w) (s.drop w)

/-- Go `strings.indexFunc`; `none` is `-1`. -/
def indexFunc (s : Bytes) (f : Nat → Bool) (truth : Bool) : Option Nat :=
  indexFuncAux f truth s.length 0 s

/-- The loop of Go `strings.lastIndexFunc`, `for i := len(s); i > 0; `. -/
def lastIndexFuncAux (f : Nat → Bool) (truth : Bool) (s : Bytes) : Nat → Nat → Option Nat
  | 0, _ => none
  | fuel + 1, i =>
    if i = 0 then none
    else
      let (r, size) := DecodeLastRuneInString (s.take i)
      let i := i - size
      if f r = truth then some i else lastIndexFuncAux f truth s fuel i

/-- Go `strings.lastIndexFunc`; `none` is `-1`. -/
def lastIndexFunc (s : Bytes) (f : Nat → Bool) (truth : Bool) : Option Nat :=
  lastIndexFuncAux f truth s (s.length + 1) s.length

/-- Go `strings.TrimLeftFunc`. -/
def TrimLeftFunc (s : Bytes) (f : Nat → Bool) : Bytes :=
  match indexFunc s f false with
  | none => []
  | some i => s.drop i

/-- Go `strings.TrimRightFunc`. -/
def TrimRightFunc (s : Bytes) (f : Nat → Bool) : Bytes :=
  match lastIndexFunc s f false with
  | some i =>
    if (s.getD i 0).val ≥ RuneSelf then s.take (i + (DecodeRuneInString (s.drop i)).2)
    else s.take (i + 1)
  | none => s.take 0

/-- Go `strings.TrimFunc`. -/
def TrimFunc (s : Bytes) (f : Nat → Bool) : Bytes :=
  TrimRightFunc (TrimLeftFunc s f) f

/-- The second loop of Go `strings.TrimSpace`, which walks `stop` down from
the end of `s[start:]`; the argument is `s[start:stop]` reversed. -/
def trimSpaceStop : Bytes → Bytes
  | [] => []
  | c :: rest =>
    if c.val ≥ RuneSelf then TrimRightFunc (c :: rest).reverse IsSpace
    else if asciiSpace c then trimSpaceStop rest
    else (c :: rest).reverse

/-- Go `strings.TrimSpace`: the ASCII fast path from the start, falling back
to `TrimFunc(s[start:], unicode.IsSpace)` at the first non-ASCII byte, then
the same from the end. -/
def TrimSpace : Bytes → Bytes
  | [] => []
  | c :: rest =>
    if c.val ≥ RuneSelf then TrimFunc (c :: rest) IsSpace
    else if asciiSpace c then TrimSpace rest
    else trimSpaceStop (c :: rest).reverse

/-! ## The log -/

/-- Go `LogEntry` of `server.go`. -/
structure LogEntry where
  Timestamp : String
  Proto : String
  Src : String
  Len : Int
  Text : Bytes
  Hex : Bytes
  Path : String
  Method : String
deriving DecidableEq

/-- One line written to the standard logger: a marshalled `LogEntry`
(`log.Println(string(b))`) or a formatted message (`log.Printf`, `log.Println`). -/
inductive LogLine where
  | entry (e : LogEntry)
  | message (msg : String)
deriving DecidableEq

/-- The standard logger and the clock: `now k` is what
`time.Now().UTC().Format(time.RFC3339Nano)` gives when `k` lines have been
written; `out` holds the lines written, oldest first. -/
structure Logger where
  now : Nat → String
  out : List LogLine

/-- Go `log.Println` / `log.Printf`: one more line. -/
def Logger.write (l : Logger) (line : LogLine) : Logger :=
  { l with out := l.out ++ [line] }

/-- The `LogEntry` lines of a log, in order. -/
def entries : List LogLine → List LogEntry
  | [] => []
  | LogLine.entry e :: rest => e :: entries rest
  | LogLine.message _ :: rest => entries rest

/-- Go `logEntry` of `server.go`. -/
def logEntry (l : Logger) (proto src : String) (data : Bytes) : Logger :=
  let text := data
  let text := if text.length > 256 then text.take 256 ++ ascii "..." else text
  let entry : LogEntry :=
    { Timestamp := l.now l.out.length
      Proto := proto
      Src := src
      Len := data.length
      Text := TrimSpace text
      Hex := EncodeToString data
      Path := ""
      Method := "" }
  l.write (LogLine.entry entry)


/-! ## `net.Conn` and `bufio.Scanner` -/

/-- Go `strings.Contains` on the characters of two strings. -/
def containsChars : List Char → List Char → Bool
  | [], substr => substr.isEmpty
  | c :: cs, substr => substr.isPrefixOf (c :: cs) || containsChars cs substr

/-- Go `strings.Contains`. -/
def Contains (s substr : String) : Bool := containsChars s.toList substr.toList

/-- The error values a `bufio.Scanner` can hold: `io.EOF`, `bufio.ErrTooLong`,
or an error of the underlying reader with its message. -/
inductive ScanErr where
  | EOF
  | ErrTooLong
  | other (msg : String)
deriving DecidableEq

/-- Go `err.Error()`. -/
def ScanErr.Error : ScanErr → String
  | ScanErr.EOF => "EOF"
  | ScanErr.ErrTooLong => "bufio.Scanner: token too long"
  | ScanErr.other msg => msg

/-- The read side of an accepted TCP connection: the bytes the peer sent that
have not been read yet, how many bytes successive `Read` calls find available
(`0` counts as `1`, and no more than are left; all that are left once the
list is used up), and how the stream ends once the bytes are read: `none`
when the peer closed it (`io.EOF`), `some msg` when reading fails with that
message. -/
structure Conn where
  remoteAddr : String
  data : Bytes
  chunks : List Nat
  closeErr : Option String

/-- The error a read gives once the bytes are read. -/
def Conn.closeError (c : Conn) : ScanErr :=
  match c.closeErr with
  | none => ScanErr.EOF
  | some m => ScanErr.other m

/-- Go `conn.Read(p)` with `len(p) = space`: the bytes read, the error, the
connection afterwards.  A read blocks until bytes are there, so it gives at
least one byte or an error. -/
def Conn.Read (c : Conn) (space : Nat) : Bytes × Option ScanErr × Conn :=
  match c.data with
  | [] => ([], some c.closeError, c)
  | _ :: _ =>
    let avail := match c.chunks with
      | [] => c.data.length
      | k :: _ => min (max k 1) c.data.length
    let n := min avail space
    (c.data.take n, none, { c with data := c.data.drop n, chunks := c.chunks.tail })

/-- Go `bytes.IndexByte`; `none` is `-1`. -/
def IndexByte : Bytes → Byte → Option Nat
  | [], _ => none
  | b :: rest, c => if b = c then some 0 else (IndexByte rest c).map (· + 1)

/-- Go `bufio.dropCR`. -/
def dropCR (data : Bytes) : Bytes :=
  if data.length > 0 ∧ data.getD (data.length - 1) 0 = 0x0D then data.take (data.length - 1)
  else data

/-- Go `bufio.ScanLines`: the advance and the token (`none` for a nil token);
it never returns an error. -/
def ScanLines (data : Bytes) (atEOF : Bool) : Nat × Option Bytes :=
  if atEOF ∧ data.length = 0 then (0, none)
  else
    match IndexByte data 0x0A with
    | some i => (i + 1, some (dropCR (data.take i)))
    | none => if atEOF then (data.length, some (dropCR data)) else (0, none)

/-- Go `bufio.MaxScanTokenSize`. -/
def MaxScanTokenSize : Nat := 64 * 1024

/-- Go `bufio.startBufSize`. -/
def startBufSize : Nat := 4096

/-- Go `bufio.Scanner` with the split function `ScanLines`: the reader, the
length of the buffer `len(s.buf)`, the index `s.start`, the unread bytes
`s.buf[s.start:s.end]` (so `s.end = start + pending.length`), the sticky
error and the last token. -/
structure Scanner where
  r : Conn
  bufLen : Nat
  start : Nat
  pending : Bytes
  err : Option ScanErr
  token : Bytes

/-- Go `bufio.NewScanner`. -/
def NewScanner (r : Conn) : Scanner :=
  { r := r, bufLen := 0, start := 0, pending := [], err := none, token := [] }

/-- Go `(*Scanner).setErr`: `if s.err == nil || s.err == io.EOF { s.err = err }`. -/
def Scanner.setErr (s : Scanner) (err : ScanErr) : Scanner :=
  if s.err = none ∨ s.err = some ScanErr.EOF then { s with err := some err } else s

/-- Go `(*Scanner).Err`. -/
def Scanner.Err (s : Scanner) : Option ScanErr :=
  if s.err = some ScanErr.EOF then none else s.err

/-- Go `(*Scanner).Bytes`. -/
def Scanner.Bytes (s : Scanner) : Bytes := s.token

/-- The read at the end of one round of the loop of `Scan`:
`n, err := s.r.Read(s.buf[s.end:len(s.buf)])`, `s.end += n`, `s.setErr(err)`. -/
def Scanner.fill (s : Scanner) : Scanner :=
  let res := s.r.Read (s.bufLen - (s.start + s.pending.length))
  let s1 := { s with r := res.2.2, pending := s.pending ++ res.1 }
  match res.2.1 with
  | some e => s1.setErr e
  | none => s1

/-- One round of the loop `for { ... }` of Go `(*Scanner).Scan`: either `Scan`
returns (left: its result and the scanner), or the loop goes round again
(right).  In order: try the split function on the unread bytes and return
its token; stop at a sticky error; shift the unread bytes to the front of the
buffer; grow a full buffer, or fail with `ErrTooLong` at `MaxScanTokenSize`;
read. -/
def Scanner.round (s : Scanner) : (Bool × Scanner) ⊕ Scanner :=
  let split : Nat × Option (List Byte) :=
    if s.pending.length > 0 ∨ s.err ≠ none then
      ScanLines s.pending (decide (s.err ≠ none))
    else (0, none)
  let s1 : Scanner := { s with start := s.start + split.1, pending := s.pending.drop split.1 }
  match split.2 with
  | some token => Sum.inl (true, { s1 with token := token })
  | none =>
    if s1.err ≠ none then Sum.inl (false, { s1 with start := 0, pending := [] })
    else
      let s2 : Scanner :=
        if s1.start > 0 ∧
            (s1.start + s1.pending.length = s1.bufLen ∨ s1.start > s1.bufLen / 2) then
          { s1 with start := 0 }
        else s1
      if s2.start + s2.pending.length = s2.bufLen then
        if s2.bufLen ≥ MaxScanTokenSize then Sum.inl (false, s2.setErr ScanErr.ErrTooLong)
        else
          let newSize := s2.bufLen * 2
          let newSize := if newSize = 0 then startBufSize else newSize
          let newSize := min newSize MaxScanTokenSize
          Sum.inr ({ s2 with bufLen := newSize, start := 0 } : Scanner).fill
      else Sum.inr s2.fill

/-- Go `(*Scanner).Scan`; the first argument bounds the rounds of its loop
(a round that returns no token reads at least one byte or meets the end of
the stream, so `len + 2` rounds are enough when `len` bytes are unread). -/
def Scanner.Scan : Nat → Scanner → Bool × Scanner
  | 0, s => (false, s)
  | fuel + 1, s =>
    match s.round with
    | Sum.inl res => res
    | Sum.inr s1 => Scanner.Scan fuel s1

/-- The loop `for scanner.Scan() { logEntry("TCP", raddr, scanner.Bytes()) }`
of `handleTCPConn`; the first argument bounds the iterations. -/
def handleTCPConnLoop (raddr : String) : Nat → Scanner → Logger → Scanner × Logger
  | 0, s, l => (s, l)
  | fuel + 1, s, l =>
    match s.Scan (s.r.data.length + 2) with
    | (true, s1) => handleTCPConnLoop raddr fuel s1 (logEntry l "TCP" raddr s1.Bytes)
    | (false, s1) => (s1, l)

/-- Go `handleTCPConn` of `server.go`.  Every token takes at least one byte
of the stream, so the loop runs at most once more than there are bytes. -/
def handleTCPConn (l : Logger) (conn : Conn) : Logger :=
  let raddr := conn.remoteAddr
  let scanner := NewScanner conn
  let res := handleTCPConnLoop raddr (conn.data.length + 1) scanner l
  match res.1.Err with
  | some err => res.2.write (LogLine.message ("TCP read error from " ++ raddr ++ ": " ++ err.Error))
  | none => res.2

/-! ## The TCP accept loop and the UDP receive loop -/

/-- The text both loops look for in an error to recognise a closed listener. -/
def closedListenerText : String := "use of closed network connection"

/-- What one call of `ln.Accept()` returns. -/
inductive AcceptResult where
  | conn (c : Conn)
  | error (msg : String)

/-- How far a listener loop got through the results handed to it: the log,
the connections handed to `go handleTCPConn(conn)`, the results of the calls
it did not make, and whether the goroutine returned (otherwise it is blocked
in its next call). -/
structure LoopState where
  log : Logger
  spawned : List Conn
  rest : List AcceptResult
  returned : Bool

/-- The accept loop of Go `startTCPServer`, run on the results of its
successive `ln.Accept()` calls. -/
def acceptLoop : List AcceptResult → Logger → List Conn → LoopState
  | [], l, spawned => { log := l, spawned := spawned, rest := [], returned := false }
  | AcceptResult.error msg :: rest, l, spawned =>
    if Contains msg closedListenerText then
      { log := l, spawned := spawned, rest := rest, returned := true }
    else
      acceptLoop rest (l.write (LogLine.message ("TCP accept error: " ++ msg))) spawned
  | AcceptResult.conn c :: rest, l, spawned => acceptLoop rest l (spawned ++ [c])

/-- What one call of `pc.ReadFrom(buf)` finds: a datagram with its sender, or an error. -/
inductive PacketResult where
  | datagram (payload : Bytes) (remote : String)
  | error (msg : String)

/-- How far the UDP loop got: the log, the results of the calls it did not
make, and whether the goroutine returned. -/
structure UDPLoopState where
  log : Logger
  rest : List PacketResult
  returned : Bool

/-- The receive loop of Go `startUDPServer`, run on the results of its
successive `pc.ReadFrom(buf)` calls; `buf` has 65535 bytes, and a read gives
the first `n = min(len(payload), len(buf))` bytes of the datagram. -/
def udpLoop : List PacketResult → Logger → UDPLoopState
  | [], l => { log := l, rest := [], returned := false }
  | PacketResult.error msg :: rest, l =>
    if Contains msg closedListenerText then { log := l, rest := rest, returned := true }
    else udpLoop rest (l.write (LogLine.message ("UDP read error: " ++ msg)))
  | PacketResult.datagram payload remote :: rest, l =>
    let n := min payload.length 65535
    let buf := payload.take n
    let data := buf.take n
    udpLoop rest (logEntry l "UDP" remote data)

/-! ## The HTTP middleware -/

/-- The fields of `*http.Request` the middleware reads. -/
structure Request where
  RemoteAddr : String
  Path : String
  Method : String
  ContentLength : Int

/-- What a handler has written to its `http.ResponseWriter`. -/
structure ResponseWriter where
  status : Nat
  body : Bytes

/-- Go `http.Handler`: `ServeHTTP(w, r)`, which may write the response and log. -/
abbrev Handler := ResponseWriter → Request → Logger → ResponseWriter × Logger

/-- Go `logHTTPRequests` of `server.go`. -/
def logHTTPRequests (next : Handler) (disableHealthLog : Bool) : Handler :=
  fun w r l =>
    if disableHealthLog && r.Path == "/healthz" then
      next w r l
    else
      let entry : LogEntry :=
        { Timestamp := l.now l.out.length
          Proto := "HTTP"
          Src := r.RemoteAddr
          Len := r.ContentLength
          Text := []
          Hex := []
          Path := r.Path
          Method := r.Method }
      next w r (l.write (LogLine.entry entry))

/-! ## `main` of the server -/

/-- The lifecycle of the server. -/
inductive Phase where
  | Starting
  | Running
  | ShuttingDown
  | Stopped
deriving DecidableEq

/-- The server process: its phase, whether each listener is open (bound and
not closed), and the lines `main` and the `start` functions wrote. -/
structure Server where
  phase : Phase
  tcpOpen : Bool
  udpOpen : Bool
  httpOpen : Bool
  out : List String

/-- What the environment does to one run of the server: whether each bind
succeeds, and whether `SIGINT`/`SIGTERM` arrives. -/
structure Run where
  tcpBind : Bool
  udpBind : Bool
  httpBind : Bool
  signal : Bool

/-- Go `startTCPServer`, the listener part: `net.Listen`, `log.Fatalf` (the
process exits: `none`) or `log.Printf`, then the accept loop in a goroutine.
The listener `ln` is known to that goroutine only. -/
def startTCPServer (bind : Bool) (addr : String) (s : Server) : Option Server :=
  if bind then some { s with tcpOpen := true, out := s.out ++ ["TCP listening on " ++ addr] }
  else none

/-- Go `startUDPServer`, the listener part; `pc` is known to its goroutine only. -/
def startUDPServer (bind : Bool) (addr : String) (s : Server) : Option Server :=
  if bind then some { s with udpOpen := true, out := s.out ++ ["UDP listening on " ++ addr] }
  else none

/-- Go `main` of `server.go`: start TCP, UDP and HTTP; wait for the signal;
then `log.Println("Shutting down servers...")`, `httpServer.Close()`,
`time.Sleep(500 * time.Millisecond)`, `log.Println("Exited cleanly.")`.
`none` is a `log.Fatalf` exit; without a signal `main` stays in `Running`. -/
def main (run : Run) : Option Server :=
  let s : Server :=
    { phase := Phase.Starting, tcpOpen := false, udpOpen := false, httpOpen := false, out := [] }
  match startTCPServer run.tcpBind ":9000" s with
  | none => none
  | some s =>
    match startUDPServer run.udpBind ":9001" s with
    | none => none
    | some s =>
      let s := { s with out := s.out ++ ["HTTP listening on :8080"] }
      if run.httpBind then
        let s := { s with httpOpen := true, phase := Phase.Running }
        if run.signal then
          let s := { s with phase := Phase.ShuttingDown,
                            out := s.out ++ ["Shutting down servers..."] }
          let s := { s with httpOpen := false }
          some { s with phase := Phase.Stopped, out := s.out ++ ["Exited cleanly."] }
        else some s
      else none

/-! ## The sender (`main.go`) -/

/-- The flags of the sender that the worker loop reads. -/
structure SendConfig where
  proto : String
  count : Int
  workers : Int
  intervalMs : Int

/-- Go `int` on a 64-bit platform: the value of `x` after wrap-around. -/
def wrapInt (x : Int) : Int := (x + 2 ^ 63) % 2 ^ 64 - 2 ^ 63

/-- Where a worker is in its loop: at the `select` on `stop` that opens an
iteration, about to call `sendUDP`/`sendTCP`, in the `select` between
`time.After` and `stop`, or returned. -/
inductive PC where
  | check
  | send
  | sleep
  | done
deriving DecidableEq

/-- One worker goroutine: its id, where it is, `msgsSent`, the results of the
send attempts it made (the error, if any), oldest first, and its log lines. -/
structure Worker where
  id : Int
  pc : PC
  msgsSent : Int
  attempts : List (Option String)
  out : List String

/-- What the environment decides for one step of a worker: the result of the
send attempt, if the step makes one, and, if the step is the `select` of the
sleep with `stop` closed, whether the timer has fired too and the runtime
picks that case. -/
structure Choice where
  sendErr : Option String
  timerFirst : Bool

/-- One step of the loop of a worker in Go `main` of `main.go`, with `stop`
telling whether the channel `stop` is closed when the step runs. -/
def workerStep (cfg : SendConfig) (stop : Bool) (ch : Choice) (w : Worker) : Worker :=
  match w.pc with
  | PC.check => if stop then { w with pc := PC.done } else { w with pc := PC.send }
  | PC.send =>
    let out :=
      match ch.sendErr with
      | some err =>
        if cfg.proto == "udp" then
          w.out ++ ["worker " ++ toString w.id ++ ": udp send error: " ++ err]
        else w.out ++ ["worker " ++ toString w.id ++ ": tcp send error: " ++ err]
      | none => w.out
    let msgsSent := wrapInt (w.msgsSent + 1)
    let w := { w with attempts := w.attempts ++ [ch.sendErr], out := out, msgsSent := msgsSent }
    if cfg.count > 0 ∧ msgsSent ≥ cfg.count then { w with pc := PC.done }
    else if cfg.intervalMs > 0 then { w with pc := PC.sleep }
    else { w with pc := PC.check }
  | PC.sleep =>
    if stop ∧ ¬ ch.timerFirst then { w with pc := PC.done } else { w with pc := PC.check }
  | PC.done => w

/-- A worker as `go func(id int)` starts it. -/
def newWorker (id : Int) : Worker :=
  { id := id, pc := PC.check, msgsSent := 0, attempts := [], out := [] }

/-- What happens while a worker runs: `close(stop)` by `main`, or a step of the worker. -/
inductive Event where
  | closeStop
  | step (ch : Choice)

/-- A worker and the channel `stop` after a sequence of events. -/
def runWorker (cfg : SendConfig) : List Event → Bool × Worker → Bool × Worker
  | [], s => s
  | Event.closeStop :: rest, s => runWorker cfg rest (true, s.2)
  | Event.step ch :: rest, s => runWorker cfg rest (s.1, workerStep cfg s.1 ch s.2)

/-- The steps among a sequence of events. -/
def stepCount : List Event → Nat
  | [] => 0
  | Event.closeStop :: rest => stepCount rest
  | Event.step _ :: rest => stepCount rest + 1

/-- The loop `for i := 0; i < *workers; i++ { wg.Add(1); go func(id int) {...}(i) }`
of `main` when no signal arrives: worker `i` runs on the choices `sched i`. -/
def pool (cfg : SendConfig) (sched : Nat → List Choice) : List Worker :=
  (List.range cfg.workers.toNat).map (fun i =>
    (runWorker cfg ((sched i).map Event.step) (false, newWorker i)).2)

/-- The send attempts of a pool. -/
def totalAttempts (ws : List Worker) : Nat := (ws.map (fun w => w.attempts.length)).sum

/-! ## The text preview as the specification words it -/

/-- The number of characters of a payload read as text, a character being
what Go `range` over a string yields: a UTF-8 encoded code point, or one
invalid byte.  The first argument bounds the count. -/
def countCharacters : Nat → Bytes → Nat
  | 0, _ => 0
  | fuel + 1, s =>
    match s with
    | [] => 0
    | _ :: _ => countCharacters fuel (s.drop (DecodeRuneInString s).2) + 1

/-- The first `n` characters of a payload read as text. -/
def takeCharacters : Nat → Bytes → Bytes
  | 0, _ => []
  | n + 1, s =>
    match s with
    | [] => []
    | _ :: _ =>
      s.take (DecodeRuneInString s).2 ++ takeCharacters n (s.drop (DecodeRuneInString s).2)

/-- The preview counted in characters: the payload read as text, cut to its
first 256 characters followed by "..." when it has more than 256
characters, left whole otherwise, then trimmed of white space. -/
def previewByCharacters (data : Bytes) : Bytes :=
  TrimSpace
    (if countCharacters data.length data > 256 then takeCharacters 256 data ++ ascii "..."
     else data)

/-- The payload cut to its first 256 bytes followed by "..." when it is
longer than 256 bytes, left whole otherwise. -/
def cutAt256 (data : Bytes) : Bytes :=
  if data.length > 256 then data.take 256 ++ ascii "..." else data

/-- The preview counted in bytes: the payload cut to its first 256 bytes
followed by "..." when it is longer than 256 bytes, left whole otherwise,
then trimmed of white space. -/
def previewByBytes (data : Bytes) : Bytes := TrimSpace (cutAt256 data)

/-- Trimming as usually written for ASCII text: drop the white space at the
start, then the white space at the end. -/
def trimASCII (s : Bytes) : Bytes :=
  (((s.dropWhile asciiSpace).reverse).dropWhile asciiSpace).reverse

/-- The UTF-8 encodings of the code points with the Unicode property
`White_Space`: U+0009 to U+000D, U+0020, U+0085, U+00A0, U+1680, U+2000 to
U+200A, U+2028, U+2029, U+202F, U+205F and U+3000. -/
def whiteSpace : List Bytes :=
  [[0x09], [0x0A], [0x0B], [0x0C], [0x0D], [0x20],
   [0xC2, 0x85], [0xC2, 0xA0],
   [0xE1, 0x9A, 0x80],
   [0xE2, 0x80, 0x80], [0xE2, 0x80, 0x81], [0xE2, 0x80, 0x82], [0xE2, 0x80, 0x83],
   [0xE2, 0x80, 0x84], [0xE2, 0x80, 0x85], [0xE2, 0x80, 0x86], [0xE2, 0x80, 0x87],
   [0xE2, 0x80, 0x88], [0xE2, 0x80, 0x89], [0xE2, 0x80, 0x8A],
   [0xE2, 0x80, 0xA8], [0xE2, 0x80, 0xA9], [0xE2, 0x80, 0xAF],
   [0xE2, 0x81, 0x9F], [0xE3, 0x80, 0x80]]

/-- A byte that is not a UTF-8 continuation byte `10xxxxxx`. -/
def notCont (b : Byte) : Prop := ¬ (0x80 ≤ b.val ∧ b.val ≤ 0xBF)

instance notCont.decidable (b : Byte) : Decidable (notCont b) :=
  inferInstanceAs (Decidable (¬ (0x80 ≤ b.val ∧ b.val ≤ 0xBF)))

/-- The text "héllo" between a no-break space U+00A0 and an ideographic
space U+3000 followed by a line feed. -/
def spaced : Bytes :=
  [0xC2, 0xA0, 0x68, 0xC3, 0xA9, 0x6C, 0x6C, 0x6F, 0xE3, 0x80, 0x80, 0x0A]

/-- A logger with nothing written yet. -/
def emptyLog : Logger := { now := fun _ => "", out := [] }

/-- The text "é" 129 times over: 129 characters, 258 bytes. -/
def accents : Bytes := (List.replicate 129 [0xC3, 0xA9]).flatten

/-! ## Streams of lines -/

/-- The lines `l1 ... ln` sent as `l1\n l2\n ... ln\n`. -/
def joinLines : List Bytes → Bytes
  | [] => []
  | x :: rest => x ++ 0x0A :: joinLines rest

/-- The log after `logEntry("TCP", raddr, t)` for each `t` in turn. -/
def logTokens (raddr : String) (l : Logger) (tokens : List Bytes) : Logger :=
  tokens.foldl (fun l t => logEntry l "TCP" raddr t) l

/-- The line `handleTCPConn` writes after its loop when the stream ended in a
read error; nothing when the peer closed the connection. -/
def readErrorLines (conn : Conn) : List LogLine :=
  match conn.closeErr with
  | none => []
  | some msg => [LogLine.message ("TCP read error from " ++ conn.remoteAddr ++ ": " ++ msg)]

/-- A scanner between two calls of `Scan` with no sticky error: the buffer is
no longer than `MaxScanTokenSize` and holds the unread bytes. -/
def Scanner.Good (s : Scanner) : Prop :=
  s.err = none ∧ s.bufLen ≤ MaxScanTokenSize ∧ s.start + s.pending.length ≤ s.bufLen

/-- A line of 256 letters `a` and a carriage return. -/
def longLineCR : Bytes := List.replicate 256 0x61 ++ [0x0D]

/-- A line of `MaxScanTokenSize` letters `a`. -/
def hugeLine : Bytes := List.replicate MaxScanTokenSize 0x61

/-- A connection from `10.0.0.1:4000` that delivers `data` and is then closed by the peer. -/
def connOf (data : Bytes) : Conn :=
  { remoteAddr := "10.0.0.1:4000", data := data, chunks := [], closeErr := none }

/-! ## Measures used in the proofs about the sender -/

/-- What holds of a worker of a bounded run as long as `stop` is open:
`msgsSent` counts the attempts made, and it has reached `count` exactly when
the worker has returned. -/
def WorkerInv (cfg : SendConfig) (w : Worker) : Prop :=
  (w.attempts.length : Int) = w.msgsSent ∧
  (w.pc = PC.done → w.msgsSent = cfg.count) ∧
  (w.pc ≠ PC.done → w.msgsSent < cfg.count)

/-- A bound on the steps a worker of a bounded run still takes. -/
def workerRank (cfg : SendConfig) (w : Worker) : Int :=
  match w.pc with
  | PC.done => 0
  | PC.check => 3 * (cfg.count - w.msgsSent)
  | PC.send => 3 * (cfg.count - w.msgsSent) - 1
  | PC.sleep => 3 * (cfg.count - w.msgsSent) + 1

/-- After `stop` is closed: the steps a worker still takes, at most. -/
def stopRank : PC → Nat
  | PC.send => 3
  | PC.sleep => 2
  | PC.check => 1
  | PC.done => 0

/-- After `stop` is closed: the send attempts a worker still makes, at most. -/
def stopAttempts : PC → Nat
  | PC.send => 1
  | _ => 0



/-! # Properties -/

/-! ## `logEntry`: the hex field -/

set_option maxRecDepth 100000 in
/-- Decoding the two digits written for a byte gives the byte back. -/
theorem hex_byte (v : Byte) :
    ¬ reverseHexTable (hextable.getD (v.val >>> 4) 0) > 0x0f ∧
    ¬ reverseHexTable (hextable.getD (v.val &&& 0x0f) 0) > 0x0f ∧
    (Fin.ofNat ((reverseHexTable (hextable.getD (v.val >>> 4) 0) <<< 4) |||
      reverseHexTable (hextable.getD (v.val &&& 0x0f) 0)) : Byte) = v := by
  revert v
  decide

/-- Go `hex.DecodeString(hex.EncodeToString(data))` is `data`, without error. -/
theorem DecodeString_EncodeToString (data : Bytes) :
    DecodeString (EncodeToString data) = some data := by
  induction data with
  | nil => rfl
  | cons v rest ih =>
    obtain ⟨h1, h2, h3⟩ := hex_byte v
    simp only [EncodeToString, DecodeString, if_neg h1, if_neg h2, ih, Option.map_some', h3]

/-- Claim C1. For every payload, `logEntry` writes exactly one line, a
`LogEntry` whose `Hex` field is the hex encoding of the whole payload:
decoding it gives back exactly the payload, whatever its length and bytes.
For the payload "hello" the field is "68656c6c6f". -/
theorem logEntry_hex (l : Logger) (proto src : String) :
    (∀ data : Bytes, ∃ e : LogEntry,
      (logEntry l proto src data).out = l.out ++ [LogLine.entry e] ∧
      e.Hex = EncodeToString data ∧ DecodeString e.Hex = some data) ∧
    (∃ e : LogEntry,
      (logEntry l proto src (ascii "hello")).out = l.out ++ [LogLine.entry e] ∧
      e.Hex = ascii "68656c6c6f") := by
  have hello : EncodeToString (ascii "hello") = ascii "68656c6c6f" := by decide
  exact ⟨fun data => ⟨_, rfl, rfl, DecodeString_EncodeToString data⟩, ⟨_, rfl, hello⟩⟩

/-! ## `strings.TrimSpace`: what it keeps -/

theorem TrimRightFunc_length_le (s : Bytes) (f : Nat → Bool) :
    (TrimRightFunc s f).length ≤ s.length := by
  unfold TrimRightFunc
  split
  · split <;> simp [List.length_take]
  · simp

theorem TrimLeftFunc_length_le (s : Bytes) (f : Nat → Bool) :
    (TrimLeftFunc s f).length ≤ s.length := by
  unfold TrimLeftFunc
  split <;> simp [List.length_drop]

theorem trimSpaceStop_length_le (r : Bytes) : (trimSpaceStop r).length ≤ r.length := by
  induction r with
  | nil => simp [trimSpaceStop]
  | cons c rest ih =>
    unfold trimSpaceStop
    split
    · exact (TrimRightFunc_length_le _ _).trans (by simp)
    · split
      · exact ih.trans (by simp)
      · simp

theorem TrimSpace_length_le (s : Bytes) : (TrimSpace s).length ≤ s.length := by
  induction s with
  | nil => simp [TrimSpace]
  | cons c rest ih =>
    unfold TrimSpace
    split
    · exact ((TrimRightFunc_length_le _ _).trans (TrimLeftFunc_length_le _ _))
    · split
      · exact ih.trans (by simp)
      · exact (trimSpaceStop_length_le _).trans (by simp)

set_option maxRecDepth 100000 in
/-- The second byte of a multi-byte encoding is at least `0x80`. -/
theorem acceptRanges_lo (b : Byte) (h : ¬ first b ≥ 0xF0) :
    0x80 ≤ (acceptRanges (first b >>> 4)).1 := by
  revert b
  decide

/-- The bytes of a rune after its first byte are all at least `0x80`. -/
theorem DecodeRuneInString_tail (s : Bytes) (j : Nat) (h1 : 1 ≤ j)
    (h2 : j < (DecodeRuneInString s).2) :
    j < s.length ∧ 0x80 ≤ (s.getD j 0).val := by
  unfold DecodeRuneInString at h2
  split at h2
  · simp at h2
  · rename_i s0 rest
    simp only at h2
    split at h2
    · simp at h2; omega
    · rename_i hx
      have hlo := acceptRanges_lo s0 hx
      split at h2
      · simp at h2; omega
      · split at h2
        · simp at h2; omega
        · rename_i s1 rest1
          split at h2
          · simp at h2; omega
          · rename_i hs1
            split at h2
            · have : j = 1 := by simp at h2; omega
              subst this
              simp [List.getD] at hs1 ⊢
              omega
            · split at h2
              · simp at h2; omega
              · rename_i s2 rest2
                split at h2
                · simp at h2; omega
                · rename_i hs2
                  split at h2
                  · have : j = 1 ∨ j = 2 := by simp at h2; omega
                    rcases this with rfl | rfl <;> simp [List.getD] at hs1 hs2 ⊢ <;> omega
                  · split at h2
                    · simp at h2; omega
                    · rename_i s3 rest3
                      split at h2
                      · simp at h2; omega
                      · rename_i hs3
                        have : j = 1 ∨ j = 2 ∨ j = 3 := by simp at h2; omega
                        rcases this with rfl | rfl | rfl <;>
                          simp [List.getD] at hs1 hs2 hs3 ⊢ <;> omega

/-- A rune of a non-empty string has at least one byte. -/
theorem DecodeRuneInString_pos (c : Byte) (rest : Bytes) :
    1 ≤ (DecodeRuneInString (c :: rest)).2 := by
  unfold DecodeRuneInString
  simp only
  repeat' split
  all_goals simp

/-- An ASCII byte decodes to itself. -/
theorem DecodeRuneInString_ascii (d : Byte) (m : Bytes) (hd : d.val < 0x80) :
    DecodeRuneInString (d :: m) = (d.val, 1) := by
  have h1 : first d = 0xF0 := by simp [first, hd]
  simp [DecodeRuneInString, h1]

/-- A white-space rune read before an ASCII byte that is not white space
ends before that byte. -/
theorem space_width (t m : Bytes) (d : Byte) (hd : d.val < 0x80) (hns : IsSpace d.val = false)
    (hsp : IsSpace (DecodeRuneInString (t ++ d :: m)).1 = true) :
    (DecodeRuneInString (t ++ d :: m)).2 ≤ t.length := by
  by_contra hlt
  push_neg at hlt
  cases t with
  | nil =>
    rw [List.nil_append, DecodeRuneInString_ascii d m hd] at hsp
    simp [hns] at hsp
  | cons a t1 =>
    have h := DecodeRuneInString_tail ((a :: t1) ++ d :: m) (a :: t1).length (by simp) hlt
    have hget : ((a :: t1) ++ d :: m).getD (a :: t1).length 0 = d := by
      rw [List.getD_append_right _ _ _ _ (le_refl _)]
      simp
    rw [hget] at h
    omega

/-- The scan of `TrimLeftFunc` for white space stops at or before an ASCII
byte that is not white space. -/
theorem indexFuncAux_stop (m : Bytes) (d : Byte) (hd : d.val < 0x80)
    (hns : IsSpace d.val = false) :
    ∀ (fuel : Nat) (t : Bytes) (i0 : Nat), t.length < fuel →
      ∃ k, k ≤ t.length ∧ indexFuncAux IsSpace false fuel i0 (t ++ d :: m) = some (i0 + k) := by
  intro fuel
  induction fuel with
  | zero => intro t i0 h; omega
  | succ fuel ih =>
    intro t i0 hlen
    cases hsp : IsSpace (DecodeRuneInString (t ++ d :: m)).1 with
    | false =>
      refine ⟨0, Nat.zero_le _, ?_⟩
      cases t with
      | nil => simp [indexFuncAux, hsp] at hsp ⊢
      | cons a t1 => simp [indexFuncAux] at hsp ⊢; simp [hsp]
    | true =>
      have hw := space_width t m d hd hns hsp
      cases t with
      | nil =>
        rw [List.nil_append, DecodeRuneInString_ascii d m hd] at hsp
        simp [hns] at hsp
      | cons a t1 =>
        have hpos : 1 ≤ (DecodeRuneInString ((a :: t1) ++ d :: m)).2 :=
          DecodeRuneInString_pos a (t1 ++ d :: m)
        set w := (DecodeRuneInString ((a :: t1) ++ d :: m)).2 with hwdef
        have hdrop : ((a :: t1) ++ d :: m).drop w = (a :: t1).drop w ++ d :: m := by
          rw [List.drop_append_of_le_length hw]
        obtain ⟨k, hk, hres⟩ := ih ((a :: t1).drop w) (i0 + w) (by
          simp only [List.length_drop, List.length_cons] at hlen ⊢; omega)
        refine ⟨w + k, ?_, ?_⟩
        · simp only [List.length_drop] at hk; omega
        · have hstep : indexFuncAux IsSpace false (fuel + 1) i0 ((a :: t1) ++ d :: m) =
              indexFuncAux IsSpace false fuel (i0 + w) (((a :: t1) ++ d :: m).drop w) := by
            simp only [List.cons_append, indexFuncAux]
            simp only [List.cons_append] at hsp
            simp [hsp, hwdef]
          rw [hstep, hdrop, hres, Nat.add_assoc]

/-- Go `TrimLeftFunc(s, unicode.IsSpace)` keeps everything from an ASCII byte
that is not white space on. -/
theorem TrimLeftFunc_keeps (t m : Bytes) (d : Byte) (hd : d.val < 0x80)
    (hns : IsSpace d.val = false) :
    ∃ u, TrimLeftFunc (t ++ d :: m) IsSpace = u ++ d :: m := by
  obtain ⟨k, hk, hres⟩ := indexFuncAux_stop m d hd hns (t ++ d :: m).length t 0 (by simp)
  refine ⟨t.drop k, ?_⟩
  unfold TrimLeftFunc indexFunc
  rw [hres]
  simp [List.drop_append_of_le_length hk]

/-- Go `TrimRightFunc(s, unicode.IsSpace)` removes nothing from a string that
ends in an ASCII byte that is not white space. -/
theorem TrimRightFunc_keeps (u : Bytes) (d : Byte) (hd : d.val < 0x80)
    (hns : IsSpace d.val = false) :
    TrimRightFunc (u ++ [d]) IsSpace = u ++ [d] := by
  have hlen : (u ++ [d]).length = u.length + 1 := by simp
  have hget : (u ++ [d]).getD u.length 0 = d := by
    rw [List.getD_append_right _ _ _ _ (le_refl _)]; simp
  have hdec : DecodeLastRuneInString (u ++ [d]) = (d.val, 1) := by
    unfold DecodeLastRuneInString
    simp only [hlen, Nat.add_sub_cancel, hget, RuneSelf]
    simp [hd]
  have hidx : lastIndexFunc (u ++ [d]) IsSpace false = some u.length := by
    unfold lastIndexFunc
    rw [hlen]
    unfold lastIndexFuncAux
    have : List.take (u.length + 1) (u ++ [d]) = u ++ [d] := by
      rw [← hlen]; exact List.take_length _
    simp [this, hdec, hns]
  unfold TrimRightFunc
  rw [hidx]
  simp only [hget, RuneSelf]
  have : ¬ d.val ≥ 0x80 := by omega
  rw [if_neg this, ← hlen]
  exact List.take_length _

/-- Go `strings.TrimSpace` removes nothing of a final "...". -/
theorem TrimSpace_keeps (t : Bytes) : ∃ u, TrimSpace (t ++ ascii "...") = u ++ ascii "..." := by
  have hm : ascii "..." = [0x2E, 0x2E, 0x2E] := by decide
  have hd : ((0x2E : Byte)).val < 0x80 := by decide
  have hns : IsSpace ((0x2E : Byte)).val = false := by decide
  rw [hm]
  induction t with
  | nil => exact ⟨[], by decide⟩
  | cons c t ih =>
    rw [List.cons_append]
    unfold TrimSpace
    split
    · obtain ⟨u, hu⟩ := TrimLeftFunc_keeps (c :: t) [0x2E, 0x2E] 0x2E hd hns
      refine ⟨u, ?_⟩
      unfold TrimFunc
      rw [← List.cons_append, hu]
      have := TrimRightFunc_keeps (u ++ [0x2E, 0x2E]) 0x2E hd hns
      simpa using this
    · split
      · exact ih
      · refine ⟨c :: t, ?_⟩
        have hrev : (c :: (t ++ [(0x2E : Byte), 0x2E, 0x2E])).reverse =
            0x2E :: (0x2E :: 0x2E :: (c :: t).reverse) := by simp
        rw [hrev]
        unfold trimSpaceStop
        have h1 : ¬ ((0x2E : Byte)).val ≥ RuneSelf := by decide
        have h2 : ¬ asciiSpace (0x2E : Byte) = true := by decide
        rw [if_neg h1, if_neg h2]
        simp

/-- Claim C10. For every payload, the `Text` field `logEntry` writes is at
most 259 bytes long, and when the payload is longer than 256 bytes the field
ends with "...". -/
theorem logEntry_text_bounded (l : Logger) (proto src : String) (data : Bytes) :
    ∃ e : LogEntry,
      (logEntry l proto src data).out = l.out ++ [LogLine.entry e] ∧
      e.Text.length ≤ 259 ∧
      (256 < data.length → ∃ u, e.Text = u ++ ascii "...") := by
  refine ⟨_, rfl, ?_, ?_⟩
  · refine (TrimSpace_length_le _).trans ?_
    split
    · have hm : (ascii "...").length = 3 := by decide
      simp only [List.length_append, List.length_take, hm]
      omega
    · omega
  · intro h
    have h1 : data.length > 256 := h
    simp only [if_pos h1]
    exact TrimSpace_keeps _

/-- A payload of 257 spaces: the preview is bounded and ends with "...". -/
theorem logEntry_text_bounded_witness :
    ∃ e : LogEntry,
      (logEntry emptyLog "UDP" "10.0.0.1:4000" (List.replicate 257 0x20)).out =
        emptyLog.out ++ [LogLine.entry e] ∧
      e.Text.length ≤ 259 ∧ ∃ u, e.Text = u ++ ascii "..." := by
  obtain ⟨e, h1, h2, h3⟩ :=
    logEntry_text_bounded emptyLog "UDP" "10.0.0.1:4000" (List.replicate 257 0x20)
  exact ⟨e, h1, h2, h3 (by rw [List.length_replicate]; decide)⟩

/-- The second loop of `TrimSpace` on ASCII bytes drops the white space at the end. -/
theorem trimSpaceStop_ascii (r : Bytes) (h : ∀ b ∈ r, b.val < 0x80) :
    trimSpaceStop r = (r.dropWhile asciiSpace).reverse := by
  induction r with
  | nil => rfl
  | cons c rest ih =>
    have hc : ¬ c.val ≥ RuneSelf := by
      have := h c (List.mem_cons_self _ _)
      simp only [RuneSelf]; omega
    unfold trimSpaceStop
    rw [if_neg hc]
    by_cases hs : asciiSpace c = true
    · rw [if_pos hs, List.dropWhile_cons_of_pos hs]
      exact ih (fun b hb => h b (List.mem_cons_of_mem _ hb))
    · rw [if_neg hs, List.dropWhile_cons_of_neg hs]

/-- Go `strings.TrimSpace` on ASCII bytes drops the white space at the start
and at the end. -/
theorem TrimSpace_ascii (s : Bytes) (h : ∀ b ∈ s, b.val < 0x80) : TrimSpace s = trimASCII s := by
  induction s with
  | nil => rfl
  | cons c rest ih =>
    have hc : ¬ c.val ≥ RuneSelf := by
      have := h c (List.mem_cons_self _ _)
      simp only [RuneSelf]; omega
    unfold TrimSpace trimASCII
    rw [if_neg hc]
    by_cases hs : asciiSpace c = true
    · rw [if_pos hs, List.dropWhile_cons_of_pos hs]
      exact ih (fun b hb => h b (List.mem_cons_of_mem _ hb))
    · rw [if_neg hs, List.dropWhile_cons_of_neg hs]
      exact trimSpaceStop_ascii _ (fun b hb => h b (List.mem_reverse.mp hb))

theorem TrimRightFunc_slice (s : Bytes) (f : Nat → Bool) :
    ∃ post, s = TrimRightFunc s f ++ post := by
  unfold TrimRightFunc
  split
  · split
    · exact ⟨_, (List.take_append_drop _ s).symm⟩
    · exact ⟨_, (List.take_append_drop _ s).symm⟩
  · exact ⟨_, (List.take_append_drop _ s).symm⟩

theorem TrimLeftFunc_slice (s : Bytes) (f : Nat → Bool) :
    ∃ pre, s = pre ++ TrimLeftFunc s f := by
  unfold TrimLeftFunc
  split
  · exact ⟨s, by simp⟩
  · exact ⟨_, (List.take_append_drop _ s).symm⟩

theorem trimSpaceStop_slice (r : Bytes) : ∃ post, r.reverse = trimSpaceStop r ++ post := by
  induction r with
  | nil => exact ⟨[], rfl⟩
  | cons c rest ih =>
    unfold trimSpaceStop
    split
    · exact TrimRightFunc_slice _ _
    · split
      · obtain ⟨post, hp⟩ := ih
        exact ⟨post ++ [c], by rw [List.reverse_cons, hp, List.append_assoc]⟩
      · exact ⟨[], by simp⟩

/-- Go `strings.TrimSpace` returns a slice of its argument. -/
theorem TrimSpace_slice (s : Bytes) : ∃ pre post, s = pre ++ TrimSpace s ++ post := by
  induction s with
  | nil => exact ⟨[], [], rfl⟩
  | cons c rest ih =>
    unfold TrimSpace
    split
    · obtain ⟨pre, hpre⟩ := TrimLeftFunc_slice (c :: rest) IsSpace
      obtain ⟨post, hpost⟩ := TrimRightFunc_slice (TrimLeftFunc (c :: rest) IsSpace) IsSpace
      refine ⟨pre, post, ?_⟩
      unfold TrimFunc
      rw [List.append_assoc, ← hpost, ← hpre]
    · split
      · obtain ⟨pre, post, hp⟩ := ih
        exact ⟨c :: pre, post, by rw [List.cons_append, List.cons_append, ← hp]⟩
      · obtain ⟨post, hp⟩ := trimSpaceStop_slice (c :: rest).reverse
        rw [List.reverse_reverse] at hp
        exact ⟨[], post, by simpa using hp⟩

/-! ## `strings.TrimSpace`: what it removes -/

theorem rune2_eq (a b : Nat) :
    ((a &&& 0x1F) <<< 6) ||| (b &&& 0x3F) = (a % 32) * 64 + b % 64 := by
  have h1 : a &&& 0x1F = a % 32 := Nat.and_pow_two_sub_one_eq_mod a 5
  have h2 : b &&& 0x3F = b % 64 := Nat.and_pow_two_sub_one_eq_mod b 6
  have hb : b % 64 < 2 ^ 6 := Nat.mod_lt _ (by norm_num)
  rw [h1, h2, Nat.shiftLeft_eq, Nat.mul_comm, ← Nat.mul_add_lt_is_or hb]

theorem rune3_eq (a b c : Nat) :
    ((a &&& 0x0F) <<< 12) ||| ((b &&& 0x3F) <<< 6) ||| (c &&& 0x3F)
      = (a % 16) * 4096 + (b % 64) * 64 + c % 64 := by
  have h1 : a &&& 0x0F = a % 16 := Nat.and_pow_two_sub_one_eq_mod a 4
  have h2 : b &&& 0x3F = b % 64 := Nat.and_pow_two_sub_one_eq_mod b 6
  have h3 : c &&& 0x3F = c % 64 := Nat.and_pow_two_sub_one_eq_mod c 6
  have hb : b % 64 * 2 ^ 6 < 2 ^ 12 := by
    have : b % 64 < 64 := Nat.mod_lt _ (by norm_num)
    omega
  have hc : c % 64 < 2 ^ 6 := Nat.mod_lt _ (by norm_num)
  rw [h1, h2, h3, Nat.shiftLeft_eq, Nat.shiftLeft_eq, Nat.mul_comm (a % 16),
    ← Nat.mul_add_lt_is_or hb]
  have e : 2 ^ 12 * (a % 16) + b % 64 * 2 ^ 6 = 2 ^ 6 * ((a % 16) * 64 + b % 64) := by ring
  rw [e, ← Nat.mul_add_lt_is_or hc]
  ring

theorem rune4_eq (a b c d : Nat) :
    ((a &&& 0x07) <<< 18) ||| ((b &&& 0x3F) <<< 12) ||| ((c &&& 0x3F) <<< 6) ||| (d &&& 0x3F)
      = (a % 8) * 262144 + (b % 64) * 4096 + (c % 64) * 64 + d % 64 := by
  have h1 : a &&& 0x07 = a % 8 := Nat.and_pow_two_sub_one_eq_mod a 3
  have h2 : b &&& 0x3F = b % 64 := Nat.and_pow_two_sub_one_eq_mod b 6
  have h3 : c &&& 0x3F = c % 64 := Nat.and_pow_two_sub_one_eq_mod c 6
  have h4 : d &&& 0x3F = d % 64 := Nat.and_pow_two_sub_one_eq_mod d 6
  have hb : b % 64 * 2 ^ 12 < 2 ^ 18 := by
    have : b % 64 < 64 := Nat.mod_lt _ (by norm_num)
    omega
  have hc : c % 64 * 2 ^ 6 < 2 ^ 12 := by
    have : c % 64 < 64 := Nat.mod_lt _ (by norm_num)
    omega
  have hd : d % 64 < 2 ^ 6 := Nat.mod_lt _ (by norm_num)
  rw [h1, h2, h3, h4, Nat.shiftLeft_eq, Nat.shiftLeft_eq, Nat.shiftLeft_eq,
    Nat.mul_comm (a % 8), ← Nat.mul_add_lt_is_or hb]
  have e1 : 2 ^ 18 * (a % 8) + b % 64 * 2 ^ 12 = 2 ^ 12 * ((a % 8) * 64 + b % 64) := by ring
  rw [e1, ← Nat.mul_add_lt_is_or hc]
  have e2 : 2 ^ 12 * ((a % 8) * 64 + b % 64) + c % 64 * 2 ^ 6
      = 2 ^ 6 * (((a % 8) * 64 + b % 64) * 64 + c % 64) := by ring
  rw [e2, ← Nat.mul_add_lt_is_or hd]
  ring

/-- An ASCII white-space byte is in the table. -/
theorem ascii_space_mem (b : Byte) (hb : b.val < 0x80) (h : IsSpace b.val = true) :
    [b] ∈ whiteSpace := by
  have hv : b.val = 0x09 ∨ b.val = 0x0A ∨ b.val = 0x0B ∨ b.val = 0x0C ∨ b.val = 0x0D ∨
      b.val = 0x20 := by
    unfold IsSpace at h
    have h' : b.val ≤ 0xFF := by omega
    simp only [h', if_true, decide_eq_true_eq, Bool.decide_or, Bool.or_eq_true] at h
    omega
  rcases hv with h1 | h1 | h1 | h1 | h1 | h1
  · have e : b = (0x09 : Byte) := Fin.ext h1
    subst e; decide
  · have e : b = (0x0A : Byte) := Fin.ext h1
    subst e; decide
  · have e : b = (0x0B : Byte) := Fin.ext h1
    subst e; decide
  · have e : b = (0x0C : Byte) := Fin.ext h1
    subst e; decide
  · have e : b = (0x0D : Byte) := Fin.ext h1
    subst e; decide
  · have e : b = (0x20 : Byte) := Fin.ext h1
    subst e; decide

set_option maxRecDepth 100000 in
set_option maxHeartbeats 4000000 in
theorem first_cases (b : Byte) :
    (first b = 0xF0 ∧ b.val < 0x80) ∨ first b = 0xF1 ∨
    (first b = 0x02 ∧ 0xC2 ≤ b.val ∧ b.val ≤ 0xDF) ∨
    (first b = 0x13 ∧ b.val = 0xE0) ∨
    (first b = 0x03 ∧ 0xE1 ≤ b.val ∧ b.val ≤ 0xEF) ∨
    (first b = 0x23 ∧ b.val = 0xED) ∨
    (first b = 0x34 ∧ b.val = 0xF0) ∨
    (first b = 0x04 ∧ 0xF1 ≤ b.val ∧ b.val ≤ 0xF3) ∨
    (first b = 0x44 ∧ b.val = 0xF4) := by
  revert b
  decide

/-- The decoder on a single byte and on a first byte that is ASCII or invalid. -/
theorem decode_one (s0 : Byte) (rest : Bytes) (h : first s0 ≥ 0xF0) :
    DecodeRuneInString (s0 :: rest) = (if first s0 = 0xF1 then RuneError else s0.val, 1) := by
  simp [DecodeRuneInString, h]

theorem decode_lead_alone (s0 : Byte) (h : ¬ first s0 ≥ 0xF0) :
    DecodeRuneInString [s0] = (RuneError, 1) := by
  simp only [DecodeRuneInString, if_neg h]
  split <;> rfl

/-- The second byte of an encoding is a continuation byte. -/
theorem accept_cont (s0 s1 : Byte) (h : ¬ first s0 ≥ 0xF0)
    (h1 : ¬ (s1.val < (acceptRanges (first s0 >>> 4)).1 ∨ (acceptRanges (first s0 >>> 4)).2 < s1.val)) :
    ¬ notCont s1 := by
  unfold notCont
  rcases first_cases s0 with hc | hc | hc | hc | hc | hc | hc | hc | hc
  · rw [hc.1] at h; exact absurd (by decide) h
  · rw [hc] at h; exact absurd (by decide) h
  · rw [hc.1, show (0x02 >>> 4) = 0 by decide] at h1
    simp only [acceptRanges] at h1; omega
  · rw [hc.1, show (0x13 >>> 4) = 1 by decide] at h1
    simp only [acceptRanges] at h1; omega
  · rw [hc.1, show (0x03 >>> 4) = 0 by decide] at h1
    simp only [acceptRanges] at h1; omega
  · rw [hc.1, show (0x23 >>> 4) = 2 by decide] at h1
    simp only [acceptRanges] at h1; omega
  · rw [hc.1, show (0x34 >>> 4) = 3 by decide] at h1
    simp only [acceptRanges] at h1; omega
  · rw [hc.1, show (0x04 >>> 4) = 0 by decide] at h1
    simp only [acceptRanges] at h1; omega
  · rw [hc.1, show (0x44 >>> 4) = 4 by decide] at h1
    simp only [acceptRanges] at h1; omega

/-- A first byte of a multi-byte encoding followed by a byte that cannot
continue it decodes as an error of width one. -/
theorem decode_lead_stop (s0 b : Byte) (rest : Bytes) (h : ¬ first s0 ≥ 0xF0) (hb : notCont b) :
    DecodeRuneInString (s0 :: b :: rest) = (RuneError, 1) := by
  simp only [DecodeRuneInString, if_neg h]
  split
  · rfl
  · split
    · rfl
    · rename_i hacc
      exact absurd hb (accept_cont s0 b h hacc)

theorem decode_width_le (s : Bytes) : (DecodeRuneInString s).2 ≤ 4 := by
  cases s with
  | nil => simp [DecodeRuneInString]
  | cons c rest =>
    unfold DecodeRuneInString
    simp only
    repeat' split
    all_goals simp

set_option maxHeartbeats 4000000 in
/-- A complete encoding decodes the same whatever follows it; so does a
single first byte when what follows cannot continue an encoding. -/
theorem decode_append (x y : Bytes) (hx : x ≠ [])
    (hw : (DecodeRuneInString x).2 = x.length)
    (hy : 2 ≤ x.length ∨ y = [] ∨ ∃ b y1, y = b :: y1 ∧ notCont b) :
    DecodeRuneInString (x ++ y) = DecodeRuneInString x := by
  cases x with
  | nil => exact absurd rfl hx
  | cons s0 xs =>
    by_cases h : first s0 ≥ 0xF0
    · rw [List.cons_append, decode_one s0 _ h, decode_one s0 _ h]
    · cases xs with
      | nil =>
        rcases hy with hy | hy | ⟨b, y1, hy, hb⟩
        · simp at hy
        · rw [hy, List.append_nil]
        · rw [hy, decode_lead_alone s0 h]
          exact decode_lead_stop s0 b y1 h hb
      | cons s1 xs1 =>
        have h4 := decode_width_le (s0 :: s1 :: xs1)
        cases xs1 with
        | nil =>
          simp only [DecodeRuneInString, if_neg h, List.cons_append, List.nil_append,
            List.length_cons, List.length_nil] at hw ⊢
          cases y with
          | nil => rfl
          | cons b y1 =>
            simp only [List.length_cons]
            split_ifs at hw ⊢ <;> (simp_all; try omega)
        | cons s2 xs2 =>
          cases xs2 with
          | nil =>
            simp only [DecodeRuneInString, if_neg h, List.cons_append, List.nil_append,
              List.length_cons, List.length_nil] at hw ⊢
            cases y with
            | nil => rfl
            | cons b y1 =>
              simp only [List.length_cons]
              split_ifs at hw ⊢ <;> (simp_all; try omega)
          | cons s3 xs3 =>
            cases xs3 with
            | nil =>
              simp only [DecodeRuneInString, if_neg h, List.cons_append, List.nil_append,
                List.length_cons, List.length_nil] at hw ⊢
              split_ifs at hw ⊢ <;> (simp_all; try omega)
            | cons s4 xs4 =>
              rw [hw] at h4
              simp only [List.length_cons] at h4
              omega

/-- The white-space code points, listed. -/
theorem IsSpace_iff (r : Nat) :
    IsSpace r = true ↔
      (r = 0x09 ∨ r = 0x0A ∨ r = 0x0B ∨ r = 0x0C ∨ r = 0x0D ∨ r = 0x20 ∨ r = 0x85 ∨ r = 0xA0 ∨
       r = 0x1680 ∨ (0x2000 ≤ r ∧ r ≤ 0x200a) ∨ r = 0x2028 ∨ r = 0x2029 ∨ r = 0x202f ∨
       r = 0x205f ∨ r = 0x3000) := by
  unfold IsSpace
  split
  · simp only [Bool.decide_or, Bool.or_eq_true, decide_eq_true_eq]
    omega
  · simp only [Bool.decide_or, Bool.decide_and, Bool.or_eq_true, Bool.and_eq_true,
      decide_eq_true_eq]
    omega

theorem mem_whiteSpace2 (a b : Byte) (h : a.val = 0xC2 ∧ (b.val = 0x85 ∨ b.val = 0xA0)) :
    [a, b] ∈ whiteSpace := by
  obtain ⟨ha, hb⟩ := h
  have ea : a = (0xC2 : Byte) := Fin.ext ha
  subst ea
  rcases hb with hb | hb
  · have eb : b = (0x85 : Byte) := Fin.ext hb
    subst eb; decide
  · have eb : b = (0xA0 : Byte) := Fin.ext hb
    subst eb; decide

set_option maxRecDepth 100000 in
theorem mem_whiteSpace3_aux :
    ∀ c : Byte, (0x80 ≤ c.val ∧ c.val ≤ 0x8A) ∨ c.val = 0xA8 ∨ c.val = 0xA9 ∨ c.val = 0xAF →
      [0xE2, 0x80, c] ∈ whiteSpace := by
  decide

theorem mem_whiteSpace3 (a b c : Byte)
    (h : (a.val = 0xE1 ∧ b.val = 0x9A ∧ c.val = 0x80) ∨
         (a.val = 0xE2 ∧ b.val = 0x80 ∧
           ((0x80 ≤ c.val ∧ c.val ≤ 0x8A) ∨ c.val = 0xA8 ∨ c.val = 0xA9 ∨ c.val = 0xAF)) ∨
         (a.val = 0xE2 ∧ b.val = 0x81 ∧ c.val = 0x9F) ∨
         (a.val = 0xE3 ∧ b.val = 0x80 ∧ c.val = 0x80)) :
    [a, b, c] ∈ whiteSpace := by
  rcases h with ⟨ha, hb, hc⟩ | ⟨ha, hb, hc⟩ | ⟨ha, hb, hc⟩ | ⟨ha, hb, hc⟩
  · have ea : a = (0xE1 : Byte) := Fin.ext ha
    have eb : b = (0x9A : Byte) := Fin.ext hb
    have ec : c = (0x80 : Byte) := Fin.ext hc
    subst ea eb ec; decide
  · have ea : a = (0xE2 : Byte) := Fin.ext ha
    have eb : b = (0x80 : Byte) := Fin.ext hb
    subst ea eb
    exact mem_whiteSpace3_aux c hc
  · have ea : a = (0xE2 : Byte) := Fin.ext ha
    have eb : b = (0x81 : Byte) := Fin.ext hb
    have ec : c = (0x9F : Byte) := Fin.ext hc
    subst ea eb ec; decide
  · have ea : a = (0xE3 : Byte) := Fin.ext ha
    have eb : b = (0x80 : Byte) := Fin.ext hb
    have ec : c = (0x80 : Byte) := Fin.ext hc
    subst ea eb ec; decide

theorem IsSpace_RuneError : IsSpace RuneError = false := by decide

theorem space2_arith (a b : Nat) (ha : 0xC2 ≤ a ∧ a ≤ 0xDF) (hb : 0x80 ≤ b ∧ b ≤ 0xBF)
    (h : IsSpace ((a % 32) * 64 + b % 64) = true) :
    a = 0xC2 ∧ (b = 0x85 ∨ b = 0xA0) := by
  rw [IsSpace_iff] at h
  rcases h with h | h | h | h | h | h | h | h | h | h | h | h | h | h | h
  all_goals omega

theorem space3_arith (a b c lo : Nat) (ha : 0xE0 ≤ a ∧ a ≤ 0xEF) (hlo : 0x80 ≤ lo)
    (hb : lo ≤ b ∧ b ≤ 0xBF) (hc : 0x80 ≤ c ∧ c ≤ 0xBF) (he : a = 0xE0 → 0xA0 ≤ lo)
    (h : IsSpace ((a % 16) * 4096 + (b % 64) * 64 + c % 64) = true) :
    (a = 0xE1 ∧ b = 0x9A ∧ c = 0x80) ∨
    (a = 0xE2 ∧ b = 0x80 ∧
      ((0x80 ≤ c ∧ c ≤ 0x8A) ∨ c = 0xA8 ∨ c = 0xA9 ∨ c = 0xAF)) ∨
    (a = 0xE2 ∧ b = 0x81 ∧ c = 0x9F) ∨
    (a = 0xE3 ∧ b = 0x80 ∧ c = 0x80) := by
  rw [IsSpace_iff] at h
  rcases h with h | h | h | h | h | h | h | h | h | h | h | h | h | h | h
  · exfalso; omega
  · exfalso; omega
  · exfalso; omega
  · exfalso; omega
  · exfalso; omega
  · exfalso; omega
  · exfalso; omega
  · exfalso; omega
  · exact Or.inl ⟨by omega, by omega, by omega⟩
  · exact Or.inr (Or.inl ⟨by omega, by omega, Or.inl (by omega)⟩)
  · exact Or.inr (Or.inl ⟨by omega, by omega, Or.inr (Or.inl (by omega))⟩)
  · exact Or.inr (Or.inl ⟨by omega, by omega, Or.inr (Or.inr (Or.inl (by omega)))⟩)
  · exact Or.inr (Or.inl ⟨by omega, by omega, Or.inr (Or.inr (Or.inr (by omega)))⟩)
  · exact Or.inr (Or.inr (Or.inl ⟨by omega, by omega, by omega⟩))
  · exact Or.inr (Or.inr (Or.inr ⟨by omega, by omega, by omega⟩))

theorem space4_arith (a b c d lo : Nat) (ha : 0xF0 ≤ a ∧ a ≤ 0xF4)
    (hb : lo ≤ b ∧ b ≤ 0xBF) (he : a = 0xF0 → 0x90 ≤ lo) :
    IsSpace ((a % 8) * 262144 + (b % 64) * 4096 + (c % 64) * 64 + d % 64) = false := by
  rw [Bool.eq_false_iff, Ne, IsSpace_iff]
  intro h
  rcases h with h | h | h | h | h | h | h | h | h | h | h | h | h | h | h
  all_goals omega

/-- The decoder on a two-byte first byte. -/
theorem decode_two (s0 s1 : Byte) (rest : Bytes) (hf : first s0 = 0x02) :
    DecodeRuneInString (s0 :: s1 :: rest) =
      if s1.val < 0x80 ∨ 0xBF < s1.val then (RuneError, 1)
      else ((s0.val % 32) * 64 + s1.val % 64, 2) := by
  have h0 : ¬ first s0 ≥ 0xF0 := by rw [hf]; decide
  have h7 : first s0 &&& 7 = 2 := by rw [hf]; rfl
  have h4 : first s0 >>> 4 = 0 := by rw [hf]; rfl
  simp only [DecodeRuneInString, if_neg h0, h7, h4, acceptRanges, rune2_eq]
  simp

/-- The decoder on a three-byte first byte. -/
theorem decode_three (s0 s1 s2 : Byte) (rest : Bytes) (h0 : ¬ first s0 ≥ 0xF0)
    (hf : first s0 &&& 7 = 3) :
    DecodeRuneInString (s0 :: s1 :: s2 :: rest) =
      if s1.val < (acceptRanges (first s0 >>> 4)).1 ∨ (acceptRanges (first s0 >>> 4)).2 < s1.val
      then (RuneError, 1)
      else if s2.val < 0x80 ∨ 0xBF < s2.val then (RuneError, 1)
      else ((s0.val % 16) * 4096 + (s1.val % 64) * 64 + s2.val % 64, 3) := by
  simp only [DecodeRuneInString, if_neg h0, hf, rune3_eq]
  simp

theorem decode_three_short (s0 s1 : Byte) (h0 : ¬ first s0 ≥ 0xF0)
    (hf : first s0 &&& 7 = 3) :
    DecodeRuneInString [s0, s1] = (RuneError, 1) := by
  simp only [DecodeRuneInString, if_neg h0, hf]
  simp

/-- The decoder on a four-byte first byte. -/
theorem decode_four (s0 s1 s2 s3 : Byte) (rest : Bytes) (h0 : ¬ first s0 ≥ 0xF0)
    (hf : first s0 &&& 7 = 4) :
    DecodeRuneInString (s0 :: s1 :: s2 :: s3 :: rest) =
      if s1.val < (acceptRanges (first s0 >>> 4)).1 ∨ (acceptRanges (first s0 >>> 4)).2 < s1.val
      then (RuneError, 1)
      else if s2.val < 0x80 ∨ 0xBF < s2.val then (RuneError, 1)
      else if s3.val < 0x80 ∨ 0xBF < s3.val then (RuneError, 1)
      else ((s0.val % 8) * 262144 + (s1.val % 64) * 4096 + (s2.val % 64) * 64 + s3.val % 64, 4) := by
  simp only [DecodeRuneInString, if_neg h0, hf, rune4_eq]
  simp

theorem decode_four_short2 (s0 s1 : Byte) (h0 : ¬ first s0 ≥ 0xF0)
    (hf : first s0 &&& 7 = 4) :
    DecodeRuneInString [s0, s1] = (RuneError, 1) := by
  simp only [DecodeRuneInString, if_neg h0, hf]
  simp

theorem decode_four_short3 (s0 s1 s2 : Byte) (h0 : ¬ first s0 ≥ 0xF0)
    (hf : first s0 &&& 7 = 4) :
    DecodeRuneInString [s0, s1, s2] = (RuneError, 1) := by
  simp only [DecodeRuneInString, if_neg h0, hf]
  simp

theorem decode_space_two (s0 s1 : Byte) (rest : Bytes) (hf : first s0 = 0x02)
    (hr : 0xC2 ≤ s0.val ∧ s0.val ≤ 0xDF)
    (h : IsSpace (DecodeRuneInString (s0 :: s1 :: rest)).1 = true) :
    [s0, s1] ∈ whiteSpace ∧ (DecodeRuneInString (s0 :: s1 :: rest)).2 = 2 := by
  rw [decode_two s0 s1 rest hf] at h ⊢
  split_ifs at h ⊢ with hb
  · rw [IsSpace_RuneError] at h; exact absurd h (by decide)
  · exact ⟨mem_whiteSpace2 s0 s1 (space2_arith s0.val s1.val hr (by omega) h), rfl⟩

theorem decode_space_three (s0 s1 : Byte) (rest : Bytes) (h0 : ¬ first s0 ≥ 0xF0)
    (hf : first s0 &&& 7 = 3) (hr : 0xE0 ≤ s0.val ∧ s0.val ≤ 0xEF)
    (ha : 0x80 ≤ (acceptRanges (first s0 >>> 4)).1 ∧ (acceptRanges (first s0 >>> 4)).2 ≤ 0xBF)
    (he : s0.val = 0xE0 → 0xA0 ≤ (acceptRanges (first s0 >>> 4)).1)
    (h : IsSpace (DecodeRuneInString (s0 :: s1 :: rest)).1 = true) :
    ∃ s2 r2, rest = s2 :: r2 ∧ [s0, s1, s2] ∈ whiteSpace ∧
      (DecodeRuneInString (s0 :: s1 :: rest)).2 = 3 := by
  cases rest with
  | nil =>
    rw [decode_three_short s0 s1 h0 hf, IsSpace_RuneError] at h
    exact absurd h (by decide)
  | cons s2 r2 =>
    rw [decode_three s0 s1 s2 r2 h0 hf] at h ⊢
    split_ifs at h ⊢ with hb hc
    · rw [IsSpace_RuneError] at h; exact absurd h (by decide)
    · rw [IsSpace_RuneError] at h; exact absurd h (by decide)
    · exact ⟨s2, r2, rfl, mem_whiteSpace3 s0 s1 s2
        (space3_arith s0.val s1.val s2.val _ hr ha.1 (by omega) (by omega) he h), rfl⟩

theorem decode_space_four (s0 s1 : Byte) (rest : Bytes) (h0 : ¬ first s0 ≥ 0xF0)
    (hf : first s0 &&& 7 = 4) (hr : 0xF0 ≤ s0.val ∧ s0.val ≤ 0xF4)
    (ha : 0x80 ≤ (acceptRanges (first s0 >>> 4)).1 ∧ (acceptRanges (first s0 >>> 4)).2 ≤ 0xBF)
    (he : s0.val = 0xF0 → 0x90 ≤ (acceptRanges (first s0 >>> 4)).1) :
    IsSpace (DecodeRuneInString (s0 :: s1 :: rest)).1 = false := by
  cases rest with
  | nil => rw [decode_four_short2 s0 s1 h0 hf, IsSpace_RuneError]
  | cons s2 r2 =>
    cases r2 with
    | nil => rw [decode_four_short3 s0 s1 s2 h0 hf, IsSpace_RuneError]
    | cons s3 r3 =>
      rw [decode_four s0 s1 s2 s3 r3 h0 hf]
      split_ifs with hb hc hd
      · exact IsSpace_RuneError
      · exact IsSpace_RuneError
      · exact IsSpace_RuneError
      · exact space4_arith s0.val s1.val s2.val s3.val _ hr (by omega) he

/-- A prefix that decodes to a white-space code point is an encoding of
the table, and the decoder's width is its length. -/
theorem decode_space (s : Bytes) (h : IsSpace (DecodeRuneInString s).1 = true) :
    ∃ p ∈ whiteSpace, ∃ rest, s = p ++ rest ∧ (DecodeRuneInString s).2 = p.length := by
  cases s with
  | nil =>
    rw [show DecodeRuneInString [] = (RuneError, 0) from rfl, IsSpace_RuneError] at h
    exact absurd h (by decide)
  | cons s0 rest =>
    by_cases h0 : first s0 ≥ 0xF0
    · rw [decode_one s0 rest h0] at h ⊢
      by_cases h1 : first s0 = 0xF1
      · rw [if_pos h1, IsSpace_RuneError] at h
        exact absurd h (by decide)
      · rw [if_neg h1] at h
        have hb : s0.val < 0x80 := by
          rcases first_cases s0 with hc | hc | hc | hc | hc | hc | hc | hc | hc
          · exact hc.2
          · exact absurd hc h1
          all_goals (rw [hc.1] at h0; exact absurd h0 (by decide))
        exact ⟨[s0], ascii_space_mem s0 hb h, rest, rfl, rfl⟩
    · cases rest with
      | nil =>
        rw [decode_lead_alone s0 h0, IsSpace_RuneError] at h
        exact absurd h (by decide)
      | cons s1 r1 =>
        rcases first_cases s0 with hc | hc | hc | hc | hc | hc | hc | hc | hc
        · rw [hc.1] at h0; exact absurd (by decide) h0
        · rw [hc] at h0; exact absurd (by decide) h0
        · obtain ⟨hm, hw⟩ := decode_space_two s0 s1 r1 hc.1 hc.2 h
          exact ⟨[s0, s1], hm, r1, rfl, hw⟩
        · obtain ⟨s2, r2, hr, hm, hw⟩ := decode_space_three s0 s1 r1 h0
            (by rw [hc.1]; rfl) (by omega) (by rw [hc.1]; decide) (by rw [hc.1]; intro _; decide) h
          subst hr
          exact ⟨[s0, s1, s2], hm, r2, rfl, hw⟩
        · obtain ⟨s2, r2, hr, hm, hw⟩ := decode_space_three s0 s1 r1 h0
            (by rw [hc.1]; rfl) (by omega) (by rw [hc.1]; decide) (by omega) h
          subst hr
          exact ⟨[s0, s1, s2], hm, r2, rfl, hw⟩
        · obtain ⟨s2, r2, hr, hm, hw⟩ := decode_space_three s0 s1 r1 h0
            (by rw [hc.1]; rfl) (by omega) (by rw [hc.1]; decide) (by omega) h
          subst hr
          exact ⟨[s0, s1, s2], hm, r2, rfl, hw⟩
        · have := decode_space_four s0 s1 r1 h0 (by rw [hc.1]; rfl) (by omega)
            (by rw [hc.1]; decide) (by rw [hc.1]; intro _; decide)
          rw [this] at h; exact absurd h (by decide)
        · have := decode_space_four s0 s1 r1 h0 (by rw [hc.1]; rfl) (by omega)
            (by rw [hc.1]; decide) (by omega)
          rw [this] at h; exact absurd h (by decide)
        · have := decode_space_four s0 s1 r1 h0 (by rw [hc.1]; rfl) (by omega)
            (by rw [hc.1]; decide) (by omega)
          rw [this] at h; exact absurd h (by decide)

set_option maxRecDepth 100000 in
/-- Every encoding of the table decodes to a white-space code point over
its whole length. -/
theorem whiteSpace_decode :
    ∀ p ∈ whiteSpace, IsSpace (DecodeRuneInString p).1 = true ∧
      (DecodeRuneInString p).2 = p.length ∧ p ≠ [] ∧
      (p.length = 1 → ∀ b ∈ p, b.val < 0x80) := by
  decide

set_option maxRecDepth 100000 in
/-- The first byte of an encoding of the table is an ASCII white-space
byte or a first byte of a multi-byte encoding; so is not a continuation
byte. The last byte is an ASCII white-space byte or is not ASCII. -/
theorem whiteSpace_ends :
    ∀ p ∈ whiteSpace,
      (∀ b ∈ p.head?, (b.val < 0x80 ∧ asciiSpace b = true) ∨ 0xC0 ≤ b.val) ∧
      (∀ b ∈ p.getLast?, (b.val < 0x80 ∧ asciiSpace b = true) ∨ 0x80 ≤ b.val) := by
  decide

theorem first_ascii (b : Byte) (hb : b.val < 0x80) : first b ≥ 0xF0 := by
  rcases first_cases b with hc | hc | hc | hc | hc | hc | hc | hc | hc <;> omega

/-- An encoding of the table decodes the same whatever follows it. -/
theorem decode_table (p : Bytes) (hp : p ∈ whiteSpace) (rest : Bytes) :
    IsSpace (DecodeRuneInString (p ++ rest)).1 = true ∧
      (DecodeRuneInString (p ++ rest)).2 = p.length := by
  obtain ⟨hs, hw, hne, h1⟩ := whiteSpace_decode p hp
  have heq : DecodeRuneInString (p ++ rest) = DecodeRuneInString p := by
    by_cases h2 : 2 ≤ p.length
    · exact decode_append p rest hne hw (Or.inl h2)
    · cases p with
      | nil => exact absurd rfl hne
      | cons b q =>
        cases q with
        | nil =>
          have hb : b.val < 0x80 := h1 rfl b (List.mem_singleton.mpr rfl)
          have hf := first_ascii b hb
          rw [List.cons_append, decode_one b _ hf, decode_one b _ hf]
        | cons c q1 =>
          simp only [List.length_cons] at h2
          omega
  rw [heq]
  exact ⟨hs, hw⟩

/-- A concatenation of encodings of the table is empty or starts with a
byte that is not a continuation byte. -/
theorem flatten_table_head (ps : List Bytes) (h : ∀ p ∈ ps, p ∈ whiteSpace) :
    ps.flatten = [] ∨ ∃ b y1, ps.flatten = b :: y1 ∧ notCont b := by
  cases ps with
  | nil => exact Or.inl rfl
  | cons p ps1 =>
    right
    have hp := h p (List.mem_cons_self _ _)
    obtain ⟨_, _, hne, _⟩ := whiteSpace_decode p hp
    obtain ⟨hh, _⟩ := whiteSpace_ends p hp
    cases p with
    | nil => exact absurd rfl hne
    | cons b q =>
      refine ⟨b, q ++ ps1.flatten, by simp, ?_⟩
      have := hh b (by simp)
      unfold notCont
      omega

theorem scanBack_le (s : Bytes) (lim : Int) :
    ∀ (k : Nat) (start : Int), scanBack s lim k start ≤ start
  | 0, start => by simp [scanBack]
  | k + 1, start => by
    rw [scanBack]
    split_ifs
    · exact le_refl _
    · have := scanBack_le s lim k (start - 1)
      omega
    · exact le_refl _

theorem drop_last (s : Bytes) (hs : s ≠ []) :
    s.drop (s.length - 1) = [s.getD (s.length - 1) 0] := by
  induction s with
  | nil => exact absurd rfl hs
  | cons c rest ih =>
    cases rest with
    | nil => rfl
    | cons d rest1 =>
      have := ih (by simp)
      simp only [List.length_cons, Nat.add_sub_cancel] at this ⊢
      rw [List.drop_succ_cons, List.getD_cons_succ]
      exact this

/-- A single byte that is not ASCII decodes as an error. -/
theorem decode_single_high (b : Byte) (hb : 0x80 ≤ b.val) :
    DecodeRuneInString [b] = (RuneError, 1) := by
  by_cases h : first b ≥ 0xF0
  · rw [decode_one b [] h]
    have h1 : first b = 0xF1 := by
      rcases first_cases b with hc | hc | hc | hc | hc | hc | hc | hc | hc <;> omega
    rw [if_pos h1]
  · exact decode_lead_alone b h

/-- The last code point of a non-empty string, read backwards, is what
the decoder reads forwards at the place where it starts. -/
theorem decodeLast_char (s : Bytes) (hs : s ≠ []) :
    1 ≤ (DecodeLastRuneInString s).2 ∧ (DecodeLastRuneInString s).2 ≤ s.length ∧
      DecodeRuneInString (s.drop (s.length - (DecodeLastRuneInString s).2)) =
        DecodeLastRuneInString s := by
  have he : s.length ≠ 0 := fun h => hs (List.length_eq_zero.mp h)
  have hpos : 1 ≤ s.length := Nat.one_le_iff_ne_zero.mpr he
  unfold DecodeLastRuneInString
  simp only [if_neg he]
  by_cases hr : (s.getD (s.length - 1) 0).val < RuneSelf
  · simp only [if_pos hr]
    refine ⟨le_refl _, hpos, ?_⟩
    rw [drop_last s hs]
    exact DecodeRuneInString_ascii _ _ hr
  · simp only [if_neg hr]
    generalize (if (s.length : Int) - UTFMax < 0 then (0 : Int)
      else (s.length : Int) - UTFMax) = lim
    have hsb := scanBack_le s lim UTFMax ((s.length : Int) - 1 - 1)
    generalize scanBack s lim UTFMax ((s.length : Int) - 1 - 1) = st at hsb
    generalize hst : (if st < 0 then 0 else st.toNat) = start
    have hlt : start < s.length := by
      rw [← hst]
      split_ifs <;> omega
    rcases hd : DecodeRuneInString (s.drop start) with ⟨r, size⟩
    simp only
    by_cases hne : start + size ≠ s.length
    · simp only [if_pos hne]
      refine ⟨le_refl _, hpos, ?_⟩
      rw [drop_last s hs]
      exact decode_single_high _ (by unfold RuneSelf at hr; omega)
    · simp only [if_neg hne]
      have heq : start + size = s.length := not_not.mp hne
      have hsz : 1 ≤ size := by
        cases hdr : s.drop start with
        | nil =>
          have := congrArg List.length hdr
          simp at this
          omega
        | cons c rest =>
          have := DecodeRuneInString_pos c rest
          rw [← hdr, hd] at this
          exact this
      refine ⟨hsz, by omega, ?_⟩
      rw [show s.length - size = start by omega]
      exact hd

/-- A string whose last code point, read backwards, is white space ends
with an encoding of the table, of the width the decoder reports. -/
theorem decodeLast_space (s : Bytes) (h : IsSpace (DecodeLastRuneInString s).1 = true) :
    ∃ p ∈ whiteSpace, ∃ pre, s = pre ++ p ∧ (DecodeLastRuneInString s).2 = p.length := by
  by_cases hs : s = []
  · subst hs
    rw [show DecodeLastRuneInString [] = (RuneError, 0) from rfl, IsSpace_RuneError] at h
    exact absurd h (by decide)
  · obtain ⟨_, hle, hd⟩ := decodeLast_char s hs
    rw [← hd] at h
    obtain ⟨p, hp, rest, hsplit, hw⟩ := decode_space _ h
    rw [hd] at hw
    have hlen := congrArg List.length hsplit
    simp only [List.length_drop, List.length_append] at hlen
    have hrest : rest = [] := List.length_eq_zero.mp (by omega)
    subst hrest
    rw [List.append_nil] at hsplit
    refine ⟨p, hp, s.take (s.length - (DecodeLastRuneInString s).2), ?_, hw⟩
    rw [← hsplit, List.take_append_drop]

theorem scanBack_hit (s : Bytes) (lim : Int) (k : Nat) (start : Int) (h1 : lim ≤ start)
    (h2 : RuneStart (s.getD start.toNat 0) = true) :
    scanBack s lim (k + 1) start = start := by
  rw [scanBack, if_pos (ge_iff_le.mpr h1), if_pos h2]

theorem scanBack_skip (s : Bytes) (lim : Int) (k : Nat) (start : Int) (h1 : lim ≤ start)
    (h2 : RuneStart (s.getD start.toNat 0) = false) :
    scanBack s lim (k + 1) start = scanBack s lim k (start - 1) := by
  rw [scanBack, if_pos (ge_iff_le.mpr h1), if_neg (by rw [h2]; decide)]

set_option maxRecDepth 100000 in
/-- The shape of the encodings of the table: at most three bytes, one
first byte, continuation bytes after it. -/
theorem whiteSpace_shape :
    ∀ p ∈ whiteSpace, p.length ≤ 3 ∧
      (p.length = 2 → RuneStart (p.getD 0 0) = true ∧ 0x80 ≤ (p.getD 1 0).val) ∧
      (p.length = 3 → RuneStart (p.getD 0 0) = true ∧ RuneStart (p.getD 1 0) = false ∧
        0x80 ≤ (p.getD 2 0).val) := by
  decide

theorem getD_append_at (pre x : Bytes) (i k : Nat) (d : Byte) (h : i = pre.length + k) :
    (pre ++ x).getD i d = x.getD k d := by
  subst h
  induction pre with
  | nil => simp
  | cons c pre1 ih =>
    rw [List.cons_append, List.length_cons, Nat.add_right_comm, List.getD_cons_succ]
    exact ih

/-- The backward decoder, once the place where the last code point starts
is known. -/
theorem decodeLast_at (s : Bytes) (start : Nat) (hs : start + 2 ≤ s.length)
    (hlast : 0x80 ≤ (s.getD (s.length - 1) 0).val)
    (hscan : scanBack s (if (s.length : Int) - UTFMax < 0 then 0 else (s.length : Int) - UTFMax)
      UTFMax ((s.length : Int) - 1 - 1) = (start : Int))
    (hw : start + (DecodeRuneInString (s.drop start)).2 = s.length) :
    DecodeLastRuneInString s = DecodeRuneInString (s.drop start) := by
  have he : s.length ≠ 0 := by omega
  unfold DecodeLastRuneInString
  simp only [if_neg he]
  have hr : ¬ (s.getD (s.length - 1) 0).val < RuneSelf := by unfold RuneSelf; omega
  simp only [if_neg hr, hscan]
  have h0 : ¬ (start : Int) < 0 := by omega
  simp only [if_neg h0, Int.toNat_ofNat]
  rcases hd : DecodeRuneInString (s.drop start) with ⟨r, size⟩
  rw [hd] at hw
  simp only at hw ⊢
  rw [if_neg (by omega)]

/-- A string that ends with an encoding of the table has a white-space
last code point, read backwards, of the width of the encoding. -/
theorem decodeLast_table (pre p : Bytes) (hp : p ∈ whiteSpace) :
    IsSpace (DecodeLastRuneInString (pre ++ p)).1 = true ∧
      (DecodeLastRuneInString (pre ++ p)).2 = p.length := by
  obtain ⟨hsp, hw, hne, h1⟩ := whiteSpace_decode p hp
  obtain ⟨h3, hs2, hs3⟩ := whiteSpace_shape p hp
  cases p with
  | nil => exact absurd rfl hne
  | cons a q =>
    cases q with
    | nil =>
      have ha : a.val < 0x80 := h1 rfl a (List.mem_singleton.mpr rfl)
      have hlen : (pre ++ [a]).length ≠ 0 := by simp
      have hget : (pre ++ [a]).getD ((pre ++ [a]).length - 1) 0 = a :=
        getD_append_at pre [a] _ 0 0 (by simp)
      unfold DecodeLastRuneInString
      simp only [if_neg hlen, hget, show a.val < RuneSelf from ha, if_true]
      rw [DecodeRuneInString_ascii a [] ha] at hsp
      exact ⟨hsp, rfl⟩
    | cons b q1 =>
      cases q1 with
      | nil =>
        obtain ⟨hra, hb⟩ := hs2 rfl
        simp only [List.getD_cons_zero, List.getD_cons_succ] at hra hb
        have hdrop : (pre ++ [a, b]).drop pre.length = [a, b] := by simp
        have hat := decodeLast_at (pre ++ [a, b]) pre.length (by simp)
          (by rw [getD_append_at pre [a, b] _ 1 0 (by simp)]; exact hb)
          (by
            have e1 : (((pre ++ [a, b]).length : Nat) : Int) - 1 - 1 = (pre.length : Int) := by
              simp only [List.length_append, List.length_cons, List.length_nil]
              push_cast; ring
            rw [e1]
            apply scanBack_hit
            · simp only [List.length_append, List.length_cons, List.length_nil, UTFMax]
              push_cast
              split_ifs <;> omega
            · rw [getD_append_at pre [a, b] _ 0 0 (by simp)]; exact hra)
          (by rw [hdrop, hw]; simp)
        rw [hat, hdrop]
        exact ⟨hsp, hw⟩
      | cons c q2 =>
        cases q2 with
        | nil =>
          obtain ⟨hra, hrb, hc⟩ := hs3 rfl
          simp only [List.getD_cons_zero, List.getD_cons_succ] at hra hrb hc
          have hdrop : (pre ++ [a, b, c]).drop pre.length = [a, b, c] := by simp
          have hat := decodeLast_at (pre ++ [a, b, c]) pre.length (by simp)
            (by rw [getD_append_at pre [a, b, c] _ 2 0 (by simp)]; exact hc)
            (by
              have e1 : (((pre ++ [a, b, c]).length : Nat) : Int) - 1 - 1 =
                  (pre.length : Int) + 1 := by
                simp only [List.length_append, List.length_cons, List.length_nil]
                push_cast; ring
              rw [e1, show UTFMax = 3 + 1 from rfl]
              rw [scanBack_skip, show (pre.length : Int) + 1 - 1 = (pre.length : Int) by ring]
              apply scanBack_hit
              · simp only [List.length_append, List.length_cons, List.length_nil, UTFMax]
                push_cast
                split_ifs <;> omega
              · rw [getD_append_at pre [a, b, c] _ 0 0 (by simp)]; exact hra
              · simp only [List.length_append, List.length_cons, List.length_nil, UTFMax]
                push_cast
                split_ifs <;> omega
              · have : ((pre.length : Int) + 1).toNat = pre.length + 1 := by omega
                rw [this]
                rw [getD_append_at pre [a, b, c] _ 1 0 rfl]; exact hrb)
            (by rw [hdrop, hw]; simp)
          rw [hat, hdrop]
          exact ⟨hsp, hw⟩
        | cons d q3 =>
          simp only [List.length_cons] at h3
          omega

theorem indexFuncAux_step_stop (fuel i : Nat) (c : Byte) (t : Bytes)
    (h : IsSpace (DecodeRuneInString (c :: t)).1 = false) :
    indexFuncAux IsSpace false (fuel + 1) i (c :: t) = some i := by
  rw [indexFuncAux]
  rcases hd : DecodeRuneInString (c :: t) with ⟨r, w⟩
  rw [hd] at h
  simp only at h ⊢
  rw [if_pos h]

theorem indexFuncAux_step_go (fuel i : Nat) (c : Byte) (t : Bytes)
    (h : IsSpace (DecodeRuneInString (c :: t)).1 = true) :
    indexFuncAux IsSpace false (fuel + 1) i (c :: t) =
      indexFuncAux IsSpace false fuel (i + (DecodeRuneInString (c :: t)).2)
        ((c :: t).drop (DecodeRuneInString (c :: t)).2) := by
  rw [indexFuncAux]
  rcases hd : DecodeRuneInString (c :: t) with ⟨r, w⟩
  rw [hd] at h
  simp only at h ⊢
  rw [if_neg (by rw [h]; decide)]

/-- The scan of `TrimLeftFunc` passes over encodings of the table and
stops at the first place that does not decode to white space. -/
theorem indexFuncAux_space :
    ∀ (fuel i : Nat) (s : Bytes), s.length ≤ fuel →
      (indexFuncAux IsSpace false fuel i s = none ∧
        ∃ pres : List Bytes, (∀ p ∈ pres, p ∈ whiteSpace) ∧ s = pres.flatten) ∨
      (∃ (pres : List Bytes) (rest : Bytes), (∀ p ∈ pres, p ∈ whiteSpace) ∧
        s = pres.flatten ++ rest ∧ IsSpace (DecodeRuneInString rest).1 = false ∧
        indexFuncAux IsSpace false fuel i s = some (i + pres.flatten.length)) := by
  intro fuel
  induction fuel with
  | zero =>
    intro i s hlen
    have hs : s = [] := List.length_eq_zero.mp (by omega)
    subst hs
    exact Or.inl ⟨rfl, [], by simp, rfl⟩
  | succ fuel ih =>
    intro i s hlen
    cases s with
    | nil => exact Or.inl ⟨rfl, [], by simp, rfl⟩
    | cons c t =>
      cases hsp : IsSpace (DecodeRuneInString (c :: t)).1 with
      | false =>
        exact Or.inr ⟨[], c :: t, by simp, rfl, hsp,
          by rw [indexFuncAux_step_stop fuel i c t hsp]; rfl⟩
      | true =>
        obtain ⟨p, hp, rest, hsplit, hw⟩ := decode_space _ hsp
        obtain ⟨_, _, hne, _⟩ := whiteSpace_decode p hp
        have hpl : 1 ≤ p.length := by
          cases p with
          | nil => exact absurd rfl hne
          | cons _ _ => simp
        have hdrop : (c :: t).drop (DecodeRuneInString (c :: t)).2 = rest := by
          rw [hw, hsplit, List.drop_left]
        have hlen2 : rest.length ≤ fuel := by
          have := congrArg List.length hsplit
          simp only [List.length_cons, List.length_append] at this hlen
          omega
        rw [indexFuncAux_step_go fuel i c t hsp, hdrop, hw, hsplit]
        rcases ih (i + p.length) rest hlen2 with ⟨hnone, pres, hall, hflat⟩ |
            ⟨pres, rest1, hall, hflat, hns, hsome⟩
        · refine Or.inl ⟨hnone, p :: pres, ?_, ?_⟩
          · intro q hq
            rcases List.mem_cons.mp hq with h | h
            · rw [h]; exact hp
            · exact hall q h
          · rw [List.flatten_cons, hflat]
        · refine Or.inr ⟨p :: pres, rest1, ?_, ?_, hns, ?_⟩
          · intro q hq
            rcases List.mem_cons.mp hq with h | h
            · rw [h]; exact hp
            · exact hall q h
          · rw [List.flatten_cons, hflat, List.append_assoc]
          · rw [hsome, List.flatten_cons, List.length_append, Nat.add_assoc]

/-- Go `TrimLeftFunc(s, unicode.IsSpace)` removes a sequence of encodings
of the table from the start, and what it returns does not start with one. -/
theorem TrimLeftFunc_spec (s : Bytes) :
    ∃ pres : List Bytes, (∀ p ∈ pres, p ∈ whiteSpace) ∧
      s = pres.flatten ++ TrimLeftFunc s IsSpace ∧
      ∀ p ∈ whiteSpace, ¬ p <+: TrimLeftFunc s IsSpace := by
  unfold TrimLeftFunc indexFunc
  rcases indexFuncAux_space s.length 0 s (le_refl _) with ⟨hnone, pres, hall, hflat⟩ |
      ⟨pres, rest, hall, hflat, hns, hsome⟩
  · rw [hnone]
    refine ⟨pres, hall, by simpa using hflat, ?_⟩
    intro p hp hpre
    obtain ⟨_, _, hne, _⟩ := whiteSpace_decode p hp
    exact hne (List.prefix_nil.mp hpre)
  · rw [hsome]
    have hd : s.drop (0 + pres.flatten.length) = rest := by
      rw [Nat.zero_add]
      conv_lhs => rw [hflat]
      exact List.drop_left _ _
    simp only [hd]
    refine ⟨pres, hall, hflat, ?_⟩
    intro p hp hpre
    obtain ⟨u, hu⟩ := hpre
    have := (decode_table p hp u).1
    rw [hu, hns] at this
    exact absurd this (by decide)

theorem lastIndexFuncAux_step_stop (s : Bytes) (fuel i : Nat) (hi : i ≠ 0)
    (h : IsSpace (DecodeLastRuneInString (s.take i)).1 = false) :
    lastIndexFuncAux IsSpace false s (fuel + 1) i =
      some (i - (DecodeLastRuneInString (s.take i)).2) := by
  rw [lastIndexFuncAux, if_neg hi]
  rcases hd : DecodeLastRuneInString (s.take i) with ⟨r, size⟩
  rw [hd] at h
  simp only at h ⊢
  rw [if_pos h]

theorem lastIndexFuncAux_step_go (s : Bytes) (fuel i : Nat) (hi : i ≠ 0)
    (h : IsSpace (DecodeLastRuneInString (s.take i)).1 = true) :
    lastIndexFuncAux IsSpace false s (fuel + 1) i =
      lastIndexFuncAux IsSpace false s fuel (i - (DecodeLastRuneInString (s.take i)).2) := by
  rw [lastIndexFuncAux, if_neg hi]
  rcases hd : DecodeLastRuneInString (s.take i) with ⟨r, size⟩
  rw [hd] at h
  simp only at h ⊢
  rw [if_neg (by rw [h]; decide)]

/-- The scan of `TrimRightFunc` passes backwards over encodings of the
table and stops at the first place whose last code point is not white
space. -/
theorem lastIndexFuncAux_space (s : Bytes) :
    ∀ (fuel i : Nat), i < fuel → i ≤ s.length →
      (lastIndexFuncAux IsSpace false s fuel i = none ∧
        ∃ posts : List Bytes, (∀ p ∈ posts, p ∈ whiteSpace) ∧ s.take i = posts.flatten) ∨
      (∃ (posts : List Bytes) (j : Nat), (∀ p ∈ posts, p ∈ whiteSpace) ∧ 0 < j ∧ j ≤ i ∧
        s.take i = s.take j ++ posts.flatten ∧
        IsSpace (DecodeLastRuneInString (s.take j)).1 = false ∧
        lastIndexFuncAux IsSpace false s fuel i =
          some (j - (DecodeLastRuneInString (s.take j)).2)) := by
  intro fuel
  induction fuel with
  | zero => intro i h; omega
  | succ fuel ih =>
    intro i hfuel hlen
    by_cases hi : i = 0
    · subst hi
      refine Or.inl ⟨?_, [], by simp, by simp⟩
      rw [lastIndexFuncAux, if_pos rfl]
    · cases hsp : IsSpace (DecodeLastRuneInString (s.take i)).1 with
      | false =>
        exact Or.inr ⟨[], i, by simp, Nat.pos_of_ne_zero hi, le_refl _, by simp, hsp,
          lastIndexFuncAux_step_stop s fuel i hi hsp⟩
      | true =>
        obtain ⟨p, hp, pre, hsplit, hw⟩ := decodeLast_space _ hsp
        obtain ⟨_, _, hne, _⟩ := whiteSpace_decode p hp
        have hpl : 1 ≤ p.length := by
          cases p with
          | nil => exact absurd rfl hne
          | cons _ _ => simp
        have hlen1 : pre.length + p.length = i := by
          have := congrArg List.length hsplit
          simp only [List.length_take, List.length_append] at this
          omega
        have htake : s.take (i - p.length) = pre := by
          have h1 : (s.take i).take (i - p.length) = pre := by
            rw [hsplit, show i - p.length = pre.length by omega, List.take_left]
          rw [List.take_take] at h1
          rw [← h1, Nat.min_eq_left (Nat.sub_le _ _)]
        rw [lastIndexFuncAux_step_go s fuel i hi hsp, hw]
        have hmem : ∀ (posts : List Bytes), (∀ q ∈ posts, q ∈ whiteSpace) →
            ∀ q ∈ posts ++ [p], q ∈ whiteSpace := by
          intro posts hall q hq
          rcases List.mem_append.mp hq with h | h
          · exact hall q h
          · rw [List.mem_singleton.mp h]; exact hp
        rcases ih (i - p.length) (by omega) (by omega) with ⟨hnone, posts, hall, hflat⟩ |
            ⟨posts, j, hall, hj0, hji, hflat, hns, hsome⟩
        · refine Or.inl ⟨hnone, posts ++ [p], hmem posts hall, ?_⟩
          rw [hsplit, ← htake, hflat]
          simp
        · refine Or.inr ⟨posts ++ [p], j, hmem posts hall, hj0, by omega, ?_, hns, hsome⟩
          rw [hsplit, ← htake, hflat]
          simp

/-- Go `TrimRightFunc(s, unicode.IsSpace)` removes a sequence of encodings
of the table from the end, and what it returns does not end with one. -/
theorem TrimRightFunc_spec (s : Bytes) :
    ∃ posts : List Bytes, (∀ p ∈ posts, p ∈ whiteSpace) ∧
      s = TrimRightFunc s IsSpace ++ posts.flatten ∧
      ∀ p ∈ whiteSpace, ¬ p <:+ TrimRightFunc s IsSpace := by
  unfold TrimRightFunc lastIndexFunc
  rcases lastIndexFuncAux_space s (s.length + 1) s.length (Nat.lt_succ_self _) (le_refl _) with
    ⟨hnone, posts, hall, hflat⟩ | ⟨posts, j, hall, hj0, hji, hflat, hns, hsome⟩
  · rw [hnone]
    rw [List.take_length] at hflat
    refine ⟨posts, hall, by simpa using hflat, ?_⟩
    intro p hp hsuf
    obtain ⟨_, _, hne, _⟩ := whiteSpace_decode p hp
    exact hne (List.suffix_nil.mp (by simpa using hsuf))
  · rw [hsome]
    rw [List.take_length] at hflat
    have hnej : s.take j ≠ [] := by
      intro h
      have := congrArg List.length h
      simp only [List.length_take, List.length_nil] at this
      omega
    obtain ⟨hs1, hs2, hdec⟩ := decodeLast_char (s.take j) hnej
    have hlj : (s.take j).length = j := by
      rw [List.length_take]; exact Nat.min_eq_left hji
    rw [hlj] at hs2 hdec
    generalize hsz : (DecodeLastRuneInString (s.take j)).2 = size at hs1 hs2 hdec ⊢
    have hdropj : s.drop j = posts.flatten := by
      have h1 : s.take j ++ s.drop j = s.take j ++ posts.flatten := by
        rw [List.take_append_drop]; exact hflat
      exact List.append_cancel_left h1
    have hx : s.drop (j - size) = (s.take j).drop (j - size) ++ posts.flatten := by
      conv_lhs => rw [← List.take_append_drop j s]
      rw [List.drop_append_of_le_length (by rw [hlj]; omega), hdropj]
    have hxl : ((s.take j).drop (j - size)).length = size := by
      rw [List.length_drop, hlj]; omega
    have hres : (if (s.getD (j - size) 0).val ≥ RuneSelf
        then s.take (j - size + (DecodeRuneInString (s.drop (j - size))).2)
        else s.take (j - size + 1)) = s.take j := by
      cases hxe : (s.take j).drop (j - size) with
      | nil => rw [hxe] at hxl; simp at hxl; omega
      | cons x0 xs =>
        have hget : s.getD (j - size) 0 = x0 := by
          have h1 : s.getD (j - size) 0 = (s.drop (j - size)).getD 0 0 := by
            simp [List.getD_eq_getElem?_getD, List.getElem?_drop]
          rw [h1, hx, hxe]
          rfl
        rw [hget]
        by_cases hhi : x0.val ≥ RuneSelf
        · rw [if_pos hhi, hx]
          have happ := decode_append ((s.take j).drop (j - size)) posts.flatten
            (by rw [hxe]; simp) (by rw [hdec, hsz]; exact hxl.symm)
            (Or.inr (flatten_table_head posts hall))
          rw [happ, hdec, hsz, Nat.sub_add_cancel hs2]
        · rw [if_neg hhi]
          have h1 : size = 1 := by
            have := DecodeRuneInString_ascii x0 xs (by unfold RuneSelf at hhi; omega)
            rw [← hxe, hdec] at this
            rw [← hsz, this]
          rw [h1, Nat.sub_add_cancel hj0]
    simp only [hres]
    refine ⟨posts, hall, hflat, ?_⟩
    intro p hp hsuf
    obtain ⟨pre, hpre⟩ := hsuf
    have := (decodeLast_table pre p hp).1
    rw [hpre, hns] at this
    exact absurd this (by decide)

theorem asciiSpace_mem (c : Byte) (h : asciiSpace c = true) : [c] ∈ whiteSpace := by
  have hv : c.val = 0x09 ∨ c.val = 0x0A ∨ c.val = 0x0B ∨ c.val = 0x0C ∨ c.val = 0x0D ∨
      c.val = 0x20 := by
    unfold asciiSpace at h
    simpa using h
  refine ascii_space_mem c (by omega) ?_
  rw [IsSpace_iff]
  omega

/-- The second loop of Go `strings.TrimSpace` removes a sequence of
encodings of the table from the end, and what it returns does not end
with one. -/
theorem trimSpaceStop_spec (t : Bytes) :
    ∃ posts : List Bytes, (∀ p ∈ posts, p ∈ whiteSpace) ∧
      t.reverse = trimSpaceStop t ++ posts.flatten ∧
      ∀ p ∈ whiteSpace, ¬ p <:+ trimSpaceStop t := by
  induction t with
  | nil =>
    refine ⟨[], by simp, rfl, ?_⟩
    intro p hp hsuf
    obtain ⟨_, _, hne, _⟩ := whiteSpace_decode p hp
    exact hne (List.suffix_nil.mp hsuf)
  | cons c rest ih =>
    rw [trimSpaceStop]
    by_cases hc : c.val ≥ RuneSelf
    · rw [if_pos hc]
      exact TrimRightFunc_spec _
    · rw [if_neg hc]
      cases hsp : asciiSpace c with
      | true =>
        simp only [if_true]
        obtain ⟨posts, hall, hflat, hns⟩ := ih
        refine ⟨posts ++ [[c]], ?_, ?_, hns⟩
        · intro q hq
          rcases List.mem_append.mp hq with h | h
          · exact hall q h
          · rw [List.mem_singleton.mp h]; exact asciiSpace_mem c hsp
        · rw [List.reverse_cons, hflat]
          simp
      | false =>
        simp only [Bool.false_eq_true, if_false]
        refine ⟨[], by simp, by simp, ?_⟩
        intro p hp hsuf
        obtain ⟨_, hl⟩ := whiteSpace_ends p hp
        have hlast : p.getLast? = some c := by
          obtain ⟨_, _, hne, _⟩ := whiteSpace_decode p hp
          obtain ⟨pre, hpre⟩ := hsuf
          rw [List.reverse_cons] at hpre
          have := congrArg List.getLast? hpre
          rw [List.getLast?_append_of_ne_nil _ hne] at this
          simpa using this
        have := hl c (by rw [hlast]; rfl)
        unfold RuneSelf at hc
        rcases this with ⟨_, h2⟩ | h2
        · rw [hsp] at h2; exact absurd h2 (by decide)
        · omega

/-- Go `strings.TrimSpace` removes a sequence of encodings of white-space
code points from the start and one from the end, and what it returns
neither starts nor ends with one. -/
theorem TrimSpace_spec (s : Bytes) :
    ∃ pres posts : List Bytes,
      (∀ p ∈ pres, p ∈ whiteSpace) ∧ (∀ p ∈ posts, p ∈ whiteSpace) ∧
      s = pres.flatten ++ TrimSpace s ++ posts.flatten ∧
      (∀ p ∈ whiteSpace, ¬ p <+: TrimSpace s) ∧
      (∀ p ∈ whiteSpace, ¬ p <:+ TrimSpace s) := by
  induction s with
  | nil =>
    refine ⟨[], [], by simp, by simp, rfl, ?_, ?_⟩
    · intro p hp hpre
      obtain ⟨_, _, hne, _⟩ := whiteSpace_decode p hp
      exact hne (List.prefix_nil.mp hpre)
    · intro p hp hsuf
      obtain ⟨_, _, hne, _⟩ := whiteSpace_decode p hp
      exact hne (List.suffix_nil.mp hsuf)
  | cons c rest ih =>
    rw [TrimSpace]
    by_cases hc : c.val ≥ RuneSelf
    · rw [if_pos hc]
      unfold TrimFunc
      obtain ⟨pres, hpres, hl, hnl⟩ := TrimLeftFunc_spec (c :: rest)
      obtain ⟨posts, hposts, hr, hnr⟩ := TrimRightFunc_spec (TrimLeftFunc (c :: rest) IsSpace)
      refine ⟨pres, posts, hpres, hposts, ?_, ?_, hnr⟩
      · rw [List.append_assoc, ← hr]
        exact hl
      · intro p hp hpre
        exact hnl p hp (hpre.trans ⟨_, hr.symm⟩)
    · rw [if_neg hc]
      cases hsp : asciiSpace c with
      | true =>
        simp only [if_true]
        obtain ⟨pres, posts, hpres, hposts, hsplit, hnl, hnr⟩ := ih
        refine ⟨[c] :: pres, posts, ?_, hposts, ?_, hnl, hnr⟩
        · intro q hq
          rcases List.mem_cons.mp hq with h | h
          · rw [h]; exact asciiSpace_mem c hsp
          · exact hpres q h
        · conv_lhs => rw [hsplit]
          simp
      | false =>
        simp only [Bool.false_eq_true, if_false]
        obtain ⟨posts, hposts, hr, hnr⟩ := trimSpaceStop_spec (c :: rest).reverse
        rw [List.reverse_reverse] at hr
        refine ⟨[], posts, by simp, hposts, by simpa using hr, ?_, hnr⟩
        intro p hp hpre
        obtain ⟨hh, _⟩ := whiteSpace_ends p hp
        have hpre2 : p <+: c :: rest := hpre.trans ⟨_, hr.symm⟩
        have hhead : p.head? = some c := by
          obtain ⟨_, _, hne, _⟩ := whiteSpace_decode p hp
          obtain ⟨u, hu⟩ := hpre2
          cases p with
          | nil => exact absurd rfl hne
          | cons a q =>
            rw [List.cons_append] at hu
            rw [(List.cons.inj hu).1]
            rfl
        have := hh c (by rw [hhead]; rfl)
        unfold RuneSelf at hc
        rcases this with ⟨_, h2⟩ | h2
        · rw [hsp] at h2; exact absurd h2 (by decide)
        · omega

/-! ## The trimmed string is determined -/

/-- No encoding of the table starts another: two strings that start with
one and are equal start with the same one. -/
theorem table_append_inj (p q x y : Bytes) (hp : p ∈ whiteSpace) (hq : q ∈ whiteSpace)
    (h : p ++ x = q ++ y) : p = q ∧ x = y := by
  have h1 := (decode_table p hp x).2
  have h2 := (decode_table q hq y).2
  rw [h] at h1
  exact List.append_inj h (h1.symm.trans h2)

/-- No encoding of the table ends another. -/
theorem table_append_inj_right (p q x y : Bytes) (hp : p ∈ whiteSpace) (hq : q ∈ whiteSpace)
    (h : x ++ p = y ++ q) : x = y ∧ p = q := by
  have h1 := (decodeLast_table x p hp).2
  have h2 := (decodeLast_table y q hq).2
  rw [h] at h1
  exact List.append_inj' h (h1.symm.trans h2)

set_option maxRecDepth 100000 in
/-- The bytes after the first of an encoding of the table are continuation
bytes. -/
theorem whiteSpace_tail :
    ∀ p ∈ whiteSpace, ∀ b ∈ p.tail, 0x80 ≤ b.val ∧ b.val ≤ 0xBF := by
  decide

/-- Two sequences of encodings of the table that start the same string:
one continues the other. -/
theorem flatten_prefix_parse :
    ∀ (pres pres' : List Bytes), (∀ p ∈ pres, p ∈ whiteSpace) →
      (∀ p ∈ pres', p ∈ whiteSpace) →
      ∀ u u' : Bytes, pres.flatten ++ u = pres'.flatten ++ u' →
        (∃ k, pres' = pres ++ k ∧ u = k.flatten ++ u') ∨
        (∃ k, pres = pres' ++ k ∧ u' = k.flatten ++ u) := by
  intro pres
  induction pres with
  | nil =>
    intro pres' _ _ u u' h
    exact Or.inl ⟨pres', rfl, by simpa using h⟩
  | cons p ps ih =>
    intro pres' hall hall' u u' h
    cases pres' with
    | nil => exact Or.inr ⟨p :: ps, rfl, by simpa using h.symm⟩
    | cons q qs =>
      rw [List.flatten_cons, List.flatten_cons, List.append_assoc, List.append_assoc] at h
      obtain ⟨hpq, hrest⟩ := table_append_inj p q _ _ (hall p (List.mem_cons_self _ _))
        (hall' q (List.mem_cons_self _ _)) h
      subst hpq
      rcases ih qs (fun r hr => hall r (List.mem_cons_of_mem _ hr))
          (fun r hr => hall' r (List.mem_cons_of_mem _ hr)) u u' hrest with
        ⟨k, hk, hu⟩ | ⟨k, hk, hu⟩
      · exact Or.inl ⟨k, by rw [hk]; rfl, hu⟩
      · exact Or.inr ⟨k, by rw [hk]; rfl, hu⟩

/-- Two sequences of encodings of the table that end the same string: one
continues the other. -/
theorem flatten_suffix_parse :
    ∀ (posts posts' : List Bytes), (∀ p ∈ posts, p ∈ whiteSpace) →
      (∀ p ∈ posts', p ∈ whiteSpace) →
      ∀ u u' : Bytes, u ++ posts.flatten = u' ++ posts'.flatten →
        (∃ k, posts' = k ++ posts ∧ u = u' ++ k.flatten) ∨
        (∃ k, posts = k ++ posts' ∧ u' = u ++ k.flatten) := by
  intro posts
  induction posts using List.reverseRecOn with
  | nil =>
    intro posts' _ _ u u' h
    exact Or.inl ⟨posts', by simp, by simpa using h⟩
  | append_singleton ps p ih =>
    intro posts' hall hall' u u' h
    rcases List.eq_nil_or_concat posts' with hnil | ⟨qs, q, hqs⟩
    · subst hnil
      exact Or.inr ⟨ps ++ [p], by simp, by simpa using h.symm⟩
    · subst hqs
      have h' : (u ++ ps.flatten) ++ p = (u' ++ qs.flatten) ++ q := by
        simpa [List.flatten_append, List.append_assoc] using h
      obtain ⟨hrest, hpq⟩ := table_append_inj_right p q _ _
        (hall p (by simp)) (hall' q (by simp)) h'
      subst hpq
      rcases ih qs (fun r hr => hall r (by simp [hr]))
          (fun r hr => hall' r (by simp [hr])) u u' hrest with
        ⟨k, hk, hu⟩ | ⟨k, hk, hu⟩
      · exact Or.inl ⟨k, by rw [hk]; simp, hu⟩
      · exact Or.inr ⟨k, by rw [hk]; simp, hu⟩

/-- A non-empty string that does not start with an encoding of the table
does not start with one when a sequence of encodings follows it. -/
theorem no_prefix_append (t : Bytes) (ht : t ≠ [])
    (hno : ∀ p ∈ whiteSpace, ¬ p <+: t) (posts : List Bytes)
    (hall : ∀ p ∈ posts, p ∈ whiteSpace) (p : Bytes) (hp : p ∈ whiteSpace) :
    ¬ p <+: t ++ posts.flatten := by
  rintro ⟨u, hu⟩
  rcases List.append_eq_append_iff.mp hu with ⟨a, ha, _⟩ | ⟨c, hc, hB⟩
  · exact hno p hp ⟨a, ha.symm⟩
  · cases c with
    | nil =>
      rw [List.append_nil] at hc
      exact hno p hp ⟨[], by rw [List.append_nil, hc]⟩
    | cons b c1 =>
      rcases flatten_table_head posts hall with hnil | ⟨b', y1, hflat, hnc⟩
      · rw [hnil] at hB; exact absurd hB (by simp)
      · rw [hflat, List.cons_append] at hB
        have hb : b' = b := (List.cons.inj hB).1
        subst hb
        have hmem : b' ∈ p.tail := by
          cases t with
          | nil => exact absurd rfl ht
          | cons t0 t1 =>
            rw [hc]
            simp
        have := whiteSpace_tail p hp b' hmem
        exact hnc this

theorem trim_unique_aux (k posts posts' : List Bytes) (t t' : Bytes)
    (hk : ∀ p ∈ k, p ∈ whiteSpace) (hposts : ∀ p ∈ posts, p ∈ whiteSpace)
    (hposts' : ∀ p ∈ posts', p ∈ whiteSpace)
    (h : t ++ posts.flatten = k.flatten ++ (t' ++ posts'.flatten))
    (hpre : ∀ p ∈ whiteSpace, ¬ p <+: t) (hsuf : ∀ p ∈ whiteSpace, ¬ p <:+ t)
    (hpre' : ∀ p ∈ whiteSpace, ¬ p <+: t') (hsuf' : ∀ p ∈ whiteSpace, ¬ p <:+ t') :
    t = t' := by
  have hlast : ∀ (m : List Bytes) (v w : Bytes), (∀ p ∈ m, p ∈ whiteSpace) →
      (∀ p ∈ whiteSpace, ¬ p <:+ v) → v = w ++ m.flatten → m = [] := by
    intro m v w hm hv hvw
    rcases List.eq_nil_or_concat m with hnil | ⟨m1, q, hm1⟩
    · exact hnil
    · subst hm1
      exfalso
      refine hv q (hm q (by simp)) ⟨w ++ m1.flatten, ?_⟩
      rw [hvw]
      simp [List.flatten_append, List.append_assoc]
  have hfirst : ∀ (n : List Bytes) (v w : Bytes), (∀ p ∈ n, p ∈ whiteSpace) →
      (∀ p ∈ whiteSpace, ¬ p <+: v) → v = n.flatten ++ w → n = [] := by
    intro n v w hn hv hvw
    cases n with
    | nil => rfl
    | cons q n1 =>
      exfalso
      refine hv q (hn q (List.mem_cons_self _ _)) ⟨n1.flatten ++ w, ?_⟩
      rw [hvw, List.flatten_cons, List.append_assoc]
  cases k with
  | nil =>
    rw [List.flatten_nil, List.nil_append] at h
    rcases flatten_suffix_parse posts posts' hposts hposts' t t' h with
      ⟨m, hm, hu⟩ | ⟨m, hm, hu⟩
    · have hmall : ∀ p ∈ m, p ∈ whiteSpace := fun p hpm => hposts' p (by rw [hm]; simp [hpm])
      have := hlast m t t' hmall hsuf hu
      rw [hu, this]; simp
    · have hmall : ∀ p ∈ m, p ∈ whiteSpace := fun p hpm => hposts p (by rw [hm]; simp [hpm])
      have := hlast m t' t hmall hsuf' hu
      rw [hu, this]; simp
  | cons p k1 =>
    have ht : t = [] := by
      by_contra hne
      refine no_prefix_append t hne hpre posts hposts p (hk p (List.mem_cons_self _ _))
        ⟨k1.flatten ++ (t' ++ posts'.flatten), ?_⟩
      rw [h, List.flatten_cons, List.append_assoc]
    subst ht
    have h2 : ([] : Bytes) ++ posts.flatten = ((p :: k1).flatten ++ t') ++ posts'.flatten := by
      rw [List.append_assoc]; exact h
    rcases flatten_suffix_parse posts posts' hposts hposts' [] _ h2 with
      ⟨m, hm, hu⟩ | ⟨m, hm, hu⟩
    · have := congrArg List.length hu
      simp only [List.length_nil, List.length_append] at this
      exact (List.length_eq_zero.mp (by omega : t'.length = 0)).symm
    · have hmall : ∀ q ∈ m, q ∈ whiteSpace := fun q hqm => hposts q (by rw [hm]; simp [hqm])
      rw [List.nil_append] at hu
      have hu' : (p :: k1).flatten ++ t' = m.flatten ++ [] := by
        rw [List.append_nil]; exact hu
      rcases flatten_prefix_parse (p :: k1) m hk hmall t' [] hu' with
        ⟨n, hn, hv⟩ | ⟨n, hn, hv⟩
      · have hnall : ∀ q ∈ n, q ∈ whiteSpace := fun q hqn => hmall q (by rw [hn]; simp [hqn])
        have := hfirst n t' [] hnall hpre' hv
        rw [hv, this]; simp
      · have := congrArg List.length hv
        simp only [List.length_nil, List.length_append] at this
        exact (List.length_eq_zero.mp (by omega : t'.length = 0)).symm

/-- Trimming is determined: two ways of writing a string as encodings of
the table, a middle part and encodings of the table, with a middle part
that neither starts nor ends with an encoding of the table, have the same
middle part. -/
theorem trim_unique (pres posts pres' posts' : List Bytes) (t t' : Bytes)
    (hpres : ∀ p ∈ pres, p ∈ whiteSpace) (hposts : ∀ p ∈ posts, p ∈ whiteSpace)
    (hpres' : ∀ p ∈ pres', p ∈ whiteSpace) (hposts' : ∀ p ∈ posts', p ∈ whiteSpace)
    (h : pres.flatten ++ t ++ posts.flatten = pres'.flatten ++ t' ++ posts'.flatten)
    (hpre : ∀ p ∈ whiteSpace, ¬ p <+: t) (hsuf : ∀ p ∈ whiteSpace, ¬ p <:+ t)
    (hpre' : ∀ p ∈ whiteSpace, ¬ p <+: t') (hsuf' : ∀ p ∈ whiteSpace, ¬ p <:+ t') :
    t = t' := by
  rw [List.append_assoc, List.append_assoc] at h
  rcases flatten_prefix_parse pres pres' hpres hpres' _ _ h with ⟨k, hk, hu⟩ | ⟨k, hk, hu⟩
  · have hkall : ∀ p ∈ k, p ∈ whiteSpace := fun p hpk => hpres' p (by rw [hk]; simp [hpk])
    exact trim_unique_aux k posts posts' t t' hkall hposts hposts' hu hpre hsuf hpre' hsuf'
  · have hkall : ∀ p ∈ k, p ∈ whiteSpace := fun p hpk => hpres p (by rw [hk]; simp [hpk])
    exact (trim_unique_aux k posts' posts t' t hkall hposts' hposts hu hpre' hsuf' hpre hsuf).symm

/-! ## `logEntry`: the text preview -/

set_option maxRecDepth 1000000 in
/-- Counterexample to claim C2 as worded. The payload "é" 129 times over has
129 characters, so the claim leaves it whole; it has 258 bytes, so `logEntry`
cuts it after 256 bytes and adds "...". -/
theorem logEntry_text_characters_fails :
    countCharacters accents.length accents = 129 ∧
    ∃ e : LogEntry,
      (logEntry emptyLog "UDP" "10.0.0.1:4000" accents).out = [LogLine.entry e] ∧
      e.Text = accents.take 256 ++ ascii "..." ∧
      previewByCharacters accents = accents ∧
      e.Text ≠ previewByCharacters accents := by
  refine ⟨by decide, _, rfl, by decide, by decide, by decide⟩

set_option maxRecDepth 100000 in
/-- Claim C2, amended. For every payload, the `Text` field `logEntry` writes
is the payload cut to its first 256 bytes followed by "..." when the payload
is longer than 256 bytes, left whole otherwise, then trimmed of leading and
trailing white space: the cut text is a sequence of encoded white-space
code points, then `Text`, then a sequence of encoded white-space code
points; `Text` neither starts nor ends with an encoded white-space code
point; and `Text` is the only string of which both hold. It is a slice of
the cut text, and for an ASCII payload it is the cut text without the white
space at its start and at its end. -/
theorem logEntry_text_bytes (l : Logger) (proto src : String) (data : Bytes) :
    ∃ e : LogEntry,
      (logEntry l proto src data).out = l.out ++ [LogLine.entry e] ∧
      e.Text = previewByBytes data ∧
      (∃ pre post, cutAt256 data = pre ++ e.Text ++ post) ∧
      ((∀ b ∈ data, b.val < 0x80) → e.Text = trimASCII (cutAt256 data)) ∧
      (∃ pres posts : List Bytes,
        (∀ p ∈ pres, p ∈ whiteSpace) ∧ (∀ p ∈ posts, p ∈ whiteSpace) ∧
        cutAt256 data = pres.flatten ++ e.Text ++ posts.flatten) ∧
      (∀ p ∈ whiteSpace, ¬ p <+: e.Text) ∧
      (∀ p ∈ whiteSpace, ¬ p <:+ e.Text) ∧
      (∀ (t : Bytes) (pres posts : List Bytes),
        (∀ p ∈ pres, p ∈ whiteSpace) → (∀ p ∈ posts, p ∈ whiteSpace) →
        cutAt256 data = pres.flatten ++ t ++ posts.flatten →
        (∀ p ∈ whiteSpace, ¬ p <+: t) → (∀ p ∈ whiteSpace, ¬ p <:+ t) →
        t = e.Text) := by
  obtain ⟨pres, posts, hpres, hposts, hsplit, hnl, hnr⟩ := TrimSpace_spec (cutAt256 data)
  refine ⟨_, rfl, rfl, TrimSpace_slice (cutAt256 data), fun h => ?_,
    ⟨pres, posts, hpres, hposts, hsplit⟩, hnl, hnr, ?_⟩
  · refine TrimSpace_ascii (cutAt256 data) (fun b hb => ?_)
    unfold cutAt256 at hb
    split at hb
    · rcases List.mem_append.mp hb with h1 | h1
      · exact h b (List.mem_of_mem_take h1)
      · have hm : ∀ c ∈ ascii "...", c.val < 0x80 := by decide
        exact hm b h1
    · exact h b hb
  · intro t pres1 posts1 hpres1 hposts1 hsplit1 hnl1 hnr1
    exact trim_unique pres1 posts1 pres posts t _ hpres1 hposts1 hpres hposts
      (hsplit1.symm.trans hsplit) hnl1 hnr1 hnl hnr

set_option maxRecDepth 100000 in
/-- The payload "  hello \n" is logged with the text "hello"; the payload
`spaced`, "héllo" between a no-break space and an ideographic space
followed by a line feed, is logged with the text "héllo". -/
theorem logEntry_text_bytes_witness :
    (∃ e : LogEntry,
      (logEntry emptyLog "UDP" "10.0.0.1:4000" (ascii "  hello \n")).out = [LogLine.entry e] ∧
      e.Text = ascii "hello") ∧
    (∃ e : LogEntry,
      (logEntry emptyLog "UDP" "10.0.0.1:4000" spaced).out = [LogLine.entry e] ∧
      e.Text = [0x68, 0xC3, 0xA9, 0x6C, 0x6C, 0x6F]) := by
  constructor
  · obtain ⟨e, h1, _, _, h4, _⟩ :=
      logEntry_text_bytes emptyLog "UDP" "10.0.0.1:4000" (ascii "  hello \n")
    refine ⟨e, by simpa [emptyLog] using h1, ?_⟩
    rw [h4 (by decide)]
    decide
  · obtain ⟨e, h1, _, _, _, _, _, _, h8⟩ :=
      logEntry_text_bytes emptyLog "UDP" "10.0.0.1:4000" spaced
    refine ⟨e, by simpa [emptyLog] using h1, ?_⟩
    exact (h8 [0x68, 0xC3, 0xA9, 0x6C, 0x6C, 0x6F] [[0xC2, 0xA0]] [[0xE3, 0x80, 0x80], [0x0A]]
      (by decide) (by decide) (by decide) (by decide) (by decide)).symm

/-! ## The HTTP middleware -/

/-- Claim C9. For every request, every wrapped handler and both values of
the option, `logHTTPRequests` hands the request to the wrapped handler
exactly once: it is the wrapped handler run on the same response writer and
request after the log got either no line, when the option is set and the
path is exactly "/healthz", or else exactly one `LogEntry` with proto
"HTTP" and the path and method of the request. -/
theorem logHTTPRequests_one_entry (next : Handler) (disableHealthLog : Bool)
    (w : ResponseWriter) (r : Request) (l : Logger) :
    ∃ l1 : Logger,
      logHTTPRequests next disableHealthLog w r l = next w r l1 ∧
      l1.now = l.now ∧
      ((disableHealthLog = true ∧ r.Path = "/healthz" ∧ l1.out = l.out) ∨
       (¬ (disableHealthLog = true ∧ r.Path = "/healthz") ∧
        ∃ e : LogEntry, l1.out = l.out ++ [LogLine.entry e] ∧
          e.Proto = "HTTP" ∧ e.Path = r.Path ∧ e.Method = r.Method)) := by
  by_cases h : disableHealthLog = true ∧ r.Path = "/healthz"
  · refine ⟨l, ?_, rfl, Or.inl ⟨h.1, h.2, rfl⟩⟩
    simp [logHTTPRequests, h.1, h.2]
  · refine ⟨l.write (LogLine.entry
      { Timestamp := l.now l.out.length, Proto := "HTTP", Src := r.RemoteAddr,
        Len := r.ContentLength, Text := [], Hex := [], Path := r.Path, Method := r.Method }),
      ?_, rfl, Or.inr ⟨h, _, rfl, rfl, rfl, rfl⟩⟩
    unfold logHTTPRequests
    have : (disableHealthLog && r.Path == "/healthz") = false := by
      cases hd : disableHealthLog
      · simp
      · simp only [hd, true_and] at h
        simp [h]
    simp only [this]
    rfl

/-! ## The listener loops -/

/-- Claim C8. In the TCP accept loop and in the UDP receive loop alike, an
error whose text has "use of closed network connection" ends the loop with
no line written and no further call made, and any other error writes exactly
one error line, after which the loop goes on with the next call. -/
theorem listener_loops_errors (msg : String) (l : Logger) :
    (∀ (rest : List AcceptResult) (spawned : List Conn),
      (Contains msg closedListenerText = true →
        acceptLoop (AcceptResult.error msg :: rest) l spawned =
          { log := l, spawned := spawned, rest := rest, returned := true }) ∧
      (Contains msg closedListenerText = false →
        acceptLoop (AcceptResult.error msg :: rest) l spawned =
          acceptLoop rest
            { now := l.now, out := l.out ++ [LogLine.message ("TCP accept error: " ++ msg)] }
            spawned)) ∧
    (∀ rest : List PacketResult,
      (Contains msg closedListenerText = true →
        udpLoop (PacketResult.error msg :: rest) l =
          { log := l, rest := rest, returned := true }) ∧
      (Contains msg closedListenerText = false →
        udpLoop (PacketResult.error msg :: rest) l =
          udpLoop rest
            { now := l.now, out := l.out ++ [LogLine.message ("UDP read error: " ++ msg)] })) := by
  refine ⟨fun rest spawned => ⟨fun h => ?_, fun h => ?_⟩, fun rest => ⟨fun h => ?_, fun h => ?_⟩⟩
  · simp [acceptLoop, h]
  · simp [acceptLoop, h, Logger.write]
  · simp [udpLoop, h]
  · simp [udpLoop, h, Logger.write]

/-- The error of a closed listener ends both loops silently, with a
connection and a datagram still to come; a timeout is logged once and the
connection and the datagram that follow are taken. -/
theorem listener_loops_errors_witness :
    (acceptLoop [AcceptResult.error "accept tcp [::]:9000: use of closed network connection",
        AcceptResult.conn ⟨"10.0.0.1:4000", [], [], none⟩] emptyLog []).returned = true ∧
    (acceptLoop [AcceptResult.error "accept tcp [::]:9000: use of closed network connection",
        AcceptResult.conn ⟨"10.0.0.1:4000", [], [], none⟩] emptyLog []).log.out = [] ∧
    (acceptLoop [AcceptResult.error "accept tcp [::]:9000: i/o timeout",
        AcceptResult.conn ⟨"10.0.0.1:4000", [], [], none⟩] emptyLog []).log.out =
      [LogLine.message "TCP accept error: accept tcp [::]:9000: i/o timeout"] ∧
    (acceptLoop [AcceptResult.error "accept tcp [::]:9000: i/o timeout",
        AcceptResult.conn ⟨"10.0.0.1:4000", [], [], none⟩] emptyLog []).spawned.length = 1 ∧
    (udpLoop [PacketResult.error "read udp [::]:9001: use of closed network connection",
        PacketResult.datagram (ascii "hello") "10.0.0.1:4000"] emptyLog).log.out = [] ∧
    (entries (udpLoop [PacketResult.error "read udp [::]:9001: i/o timeout",
        PacketResult.datagram (ascii "hello") "10.0.0.1:4000"] emptyLog).log.out).length = 1 := by
  have hc := listener_loops_errors "accept tcp [::]:9000: use of closed network connection" emptyLog
  have ht := listener_loops_errors "accept tcp [::]:9000: i/o timeout" emptyLog
  have hcu := listener_loops_errors "read udp [::]:9001: use of closed network connection" emptyLog
  have htu := listener_loops_errors "read udp [::]:9001: i/o timeout" emptyLog
  refine ⟨?_, ?_, ?_, ?_, ?_, ?_⟩
  · rw [(hc.1 _ _).1 (by decide)]
  · rw [(hc.1 _ _).1 (by decide)]; rfl
  · rw [(ht.1 _ _).2 (by decide)]; rfl
  · rw [(ht.1 _ _).2 (by decide)]; rfl
  · rw [(hcu.2 _).1 (by decide)]; rfl
  · rw [(htu.2 _).2 (by decide)]; rfl

/-! ## The shutdown of the server -/

/-- Claim C7 on the code. With all three listeners bound and the signal
received, `main` reaches `Stopped` having closed the HTTP listener only: the
TCP listener and the UDP listener are still open. -/
theorem main_closes_http_only :
    ∃ s : Server, main { tcpBind := true, udpBind := true, httpBind := true, signal := true } = some s ∧
      s.phase = Phase.Stopped ∧ s.httpOpen = false ∧ s.tcpOpen = true ∧ s.udpOpen = true :=
  ⟨_, rfl, rfl, rfl, rfl, rfl⟩

/-! ## The sender: a worker without a stop signal -/

/-- No wrap-around below `2 ^ 63`. -/
theorem wrapInt_small (x : Int) (h0 : 0 ≤ x) (h1 : x < 2 ^ 63) : wrapInt x = x := by
  unfold wrapInt
  omega

theorem workerStep_inv (cfg : SendConfig) (hmax : cfg.count < 2 ^ 63)
    (ch : Choice) (w : Worker) (hinv : WorkerInv cfg w) :
    WorkerInv cfg (workerStep cfg false ch w) ∧
    (w.pc ≠ PC.done → workerRank cfg (workerStep cfg false ch w) ≤ workerRank cfg w - 1) ∧
    (w.pc = PC.done → workerStep cfg false ch w = w) := by
  rcases w with ⟨id, pc, m, att, out⟩
  obtain ⟨h1, h2, h3⟩ := hinv
  dsimp only at h1 h2 h3
  cases pc with
  | check =>
    have h3 := h3 (by decide)
    refine ⟨⟨h1, by simp [workerStep], by simp [workerStep]; exact h3⟩, ?_, by simp⟩
    intro _
    simp only [workerStep, workerRank, Bool.false_eq_true, if_false]
    omega
  | send =>
    have h3 := h3 (by decide)
    have hm0 : 0 ≤ m := by rw [← h1]; exact Int.natCast_nonneg _
    have hw : wrapInt (m + 1) = m + 1 := wrapInt_small _ (by omega) (by omega)
    refine ⟨?_, ?_, by simp⟩
    · simp only [workerStep, hw]
      by_cases hc : cfg.count > 0 ∧ m + 1 ≥ cfg.count
      · rw [if_pos hc]
        refine ⟨by simp; omega, fun _ => ?_, fun h => absurd rfl h⟩
        dsimp only
        omega
      · rw [if_neg hc]
        have hlt : m + 1 < cfg.count := by
          by_contra hh
          exact hc ⟨by omega, by omega⟩
        by_cases hi : cfg.intervalMs > 0
        · rw [if_pos hi]
          exact ⟨by simp; omega, by simp, fun _ => hlt⟩
        · rw [if_neg hi]
          exact ⟨by simp; omega, by simp, fun _ => hlt⟩
    · intro _
      simp only [workerStep, hw]
      by_cases hc : cfg.count > 0 ∧ m + 1 ≥ cfg.count
      · rw [if_pos hc]
        simp only [workerRank]
        omega
      · rw [if_neg hc]
        by_cases hi : cfg.intervalMs > 0
        · rw [if_pos hi]
          simp only [workerRank]
          omega
        · rw [if_neg hi]
          simp only [workerRank]
          omega
  | sleep =>
    have h3 := h3 (by decide)
    refine ⟨⟨h1, by simp [workerStep], by simp [workerStep]; exact h3⟩, ?_, by simp⟩
    intro _
    simp [workerStep, workerRank]
  | done =>
    refine ⟨⟨h1, fun _ => h2 rfl, fun h => ?_⟩, fun h => absurd rfl h, fun _ => rfl⟩
    simp [workerStep] at h

/-- A worker that has not returned has steps left. -/
theorem workerRank_pos (cfg : SendConfig) (w : Worker) (hinv : WorkerInv cfg w)
    (h : w.pc ≠ PC.done) : 2 ≤ workerRank cfg w := by
  obtain ⟨_, _, h3⟩ := hinv
  have := h3 h
  rcases w with ⟨id, pc, m, att, out⟩
  cases pc <;> simp [workerRank] at * <;> omega

theorem runWorker_inv (cfg : SendConfig) (hmax : cfg.count < 2 ^ 63) :
    ∀ (chs : List Choice) (w : Worker), WorkerInv cfg w →
      (runWorker cfg (chs.map Event.step) (false, w)).1 = false ∧
      WorkerInv cfg (runWorker cfg (chs.map Event.step) (false, w)).2 ∧
      ((runWorker cfg (chs.map Event.step) (false, w)).2.pc ≠ PC.done →
        workerRank cfg (runWorker cfg (chs.map Event.step) (false, w)).2
          ≤ workerRank cfg w - chs.length) := by
  intro chs
  induction chs with
  | nil => intro w hinv; simp [runWorker, hinv]
  | cons ch rest ih =>
    intro w hinv
    obtain ⟨hi, hr, hd⟩ := workerStep_inv cfg hmax ch w hinv
    obtain ⟨a, b, c⟩ := ih (workerStep cfg false ch w) hi
    simp only [List.map_cons, runWorker]
    refine ⟨a, b, fun hnd => ?_⟩
    have hc := c hnd
    by_cases hw : w.pc = PC.done
    · exfalso
      rw [hd hw] at hnd b
      clear ih a c hc hr hi
      -- a returned worker stays returned
      have : ∀ (l : List Choice) (w : Worker), w.pc = PC.done →
          (runWorker cfg (l.map Event.step) (false, w)).2.pc = PC.done := by
        intro l
        induction l with
        | nil => intro w h; simpa [runWorker] using h
        | cons c l ihl =>
          intro w h
          simp only [List.map_cons, runWorker]
          have hs : workerStep cfg false c w = w := by
            rcases w with ⟨id, pc, m, att, out⟩
            simp only at h
            subst h
            rfl
          rw [hs]
          exact ihl w h
      exact hnd (this rest w hw)
    · have := hr hw
      simp only [List.length_cons, Nat.cast_add, Nat.cast_one]
      omega

theorem totalAttempts_const (k : Int) :
    ∀ ws : List Worker, (∀ w ∈ ws, (w.attempts.length : Int) = k) →
      (totalAttempts ws : Int) = ws.length * k := by
  intro ws
  induction ws with
  | nil => intro _; simp [totalAttempts]
  | cons w rest ih =>
    intro h
    have h1 := h w (List.mem_cons_self _ _)
    have h2 := ih (fun x hx => h x (List.mem_cons_of_mem _ hx))
    simp only [totalAttempts, List.map_cons, List.sum_cons, List.length_cons] at h2 ⊢
    rw [Nat.cast_add, h2, h1, Nat.cast_add, Nat.cast_one]
    ring

/-- Claim C5. For every configuration with `count = K > 0` (a Go `int`, so
below `2 ^ 63`) and `W` workers, and for every result of every send attempt,
when `stop` is never closed every worker returns after exactly `K` send
attempts (given the at most `3 * K` steps this takes), so the pool makes
exactly `W * K` attempts. -/
theorem pool_attempts (cfg : SendConfig) (hK : 0 < cfg.count) (hmax : cfg.count < 2 ^ 63)
    (hW : 0 ≤ cfg.workers) (sched : Nat → List Choice)
    (hlen : ∀ i, 3 * cfg.count ≤ (sched i).length) :
    ((pool cfg sched).length : Int) = cfg.workers ∧
    (∀ w ∈ pool cfg sched, w.pc = PC.done ∧ (w.attempts.length : Int) = cfg.count) ∧
    (totalAttempts (pool cfg sched) : Int) = cfg.workers * cfg.count := by
  have hone : ∀ w ∈ pool cfg sched, w.pc = PC.done ∧ (w.attempts.length : Int) = cfg.count := by
    intro w hw
    simp only [pool, List.mem_map, List.mem_range] at hw
    obtain ⟨i, _, rfl⟩ := hw
    have hinit : WorkerInv cfg (newWorker i) := by
      refine ⟨by simp [newWorker], fun h => ?_, fun _ => by simpa [newWorker] using hK⟩
      simp [newWorker] at h
    obtain ⟨_, hinv, hrank⟩ := runWorker_inv cfg hmax (sched i) (newWorker i) hinit
    have hdone : (runWorker cfg ((sched i).map Event.step) (false, newWorker i)).2.pc = PC.done := by
      by_contra hnd
      have h1 := hrank hnd
      have h2 := workerRank_pos cfg _ hinv hnd
      have h3 : workerRank cfg (newWorker i) = 3 * cfg.count := by simp [workerRank, newWorker]
      have h4 := hlen i
      omega
    exact ⟨hdone, by rw [hinv.1]; exact hinv.2.1 hdone⟩
  have hl : ((pool cfg sched).length : Int) = cfg.workers := by
    simp only [pool, List.length_map, List.length_range]
    exact Int.toNat_of_nonneg hW
  refine ⟨hl, hone, ?_⟩
  rw [totalAttempts_const cfg.count _ (fun w hw => (hone w hw).2), hl]

/-- Two workers, three messages each, the first attempt of each failing: six attempts. -/
theorem pool_attempts_witness :
    totalAttempts (pool { proto := "udp", count := 3, workers := 2, intervalMs := 10 }
      (fun _ => ⟨some "connection refused", false⟩ :: List.replicate 8 ⟨none, false⟩)) = 6 := by
  have h := pool_attempts { proto := "udp", count := 3, workers := 2, intervalMs := 10 }
    (by decide) (by decide) (by decide)
    (fun _ => ⟨some "connection refused", false⟩ :: List.replicate 8 ⟨none, false⟩)
    (fun _ => by simp)
  have h3 := h.2.2
  simp only at h3
  omega

/-! ## The sender: a worker after the stop signal -/

theorem workerStep_stop (cfg : SendConfig) (ch : Choice) (w : Worker) :
    (workerStep cfg true ch w).attempts.length + stopAttempts (workerStep cfg true ch w).pc
      ≤ w.attempts.length + stopAttempts w.pc ∧
    stopRank (workerStep cfg true ch w).pc ≤ stopRank w.pc - 1 := by
  rcases w with ⟨id, pc, m, att, out⟩
  cases pc with
  | check => simp [workerStep, stopRank, stopAttempts]
  | send =>
    simp only [workerStep]
    split_ifs <;> simp [stopRank, stopAttempts]
  | sleep =>
    simp only [workerStep]
    split_ifs <;> simp [stopRank, stopAttempts]
  | done => simp [workerStep, stopRank, stopAttempts]

theorem runWorker_stop (cfg : SendConfig) :
    ∀ (evs : List Event) (w : Worker),
      (runWorker cfg evs (true, w)).2.attempts.length
          + stopAttempts (runWorker cfg evs (true, w)).2.pc
        ≤ w.attempts.length + stopAttempts w.pc ∧
      stopRank (runWorker cfg evs (true, w)).2.pc ≤ stopRank w.pc - stepCount evs := by
  intro evs
  induction evs with
  | nil => intro w; simp [runWorker, stepCount]
  | cons ev rest ih =>
    intro w
    cases ev with
    | closeStop =>
      simp only [runWorker, stepCount]
      exact ih w
    | step ch =>
      simp only [runWorker, stepCount]
      obtain ⟨a, b⟩ := ih (workerStep cfg true ch w)
      obtain ⟨c, d⟩ := workerStep_stop cfg ch w
      exact ⟨a.trans c, by omega⟩

/-- Claim C6. For every count and interval, from any point of the loop of a
worker at which `stop` is closed: whatever happens next, the worker makes at
most one further send attempt, and it has returned after three steps; a send
attempt is made only by a step that follows a check of `stop` that found it
open; a check that finds `stop` closed returns at once, and so does the
sleep when `stop` is closed and the timer has not fired. -/
theorem worker_stops (cfg : SendConfig) (w : Worker) :
    (∀ evs : List Event,
      (runWorker cfg evs (true, w)).2.attempts.length ≤ w.attempts.length + 1 ∧
      (3 ≤ stepCount evs → (runWorker cfg evs (true, w)).2.pc = PC.done)) ∧
    (∀ (stop : Bool) (ch : Choice),
      ((workerStep cfg stop ch w).attempts ≠ w.attempts → w.pc = PC.send) ∧
      ((workerStep cfg stop ch w).pc = PC.send → w.pc = PC.check ∧ stop = false)) ∧
    (∀ ch : Choice, w.pc = PC.check → workerStep cfg true ch w = { w with pc := PC.done }) ∧
    (∀ ch : Choice, w.pc = PC.sleep → ch.timerFirst = false →
      workerStep cfg true ch w = { w with pc := PC.done }) := by
  refine ⟨fun evs => ?_, fun stop ch => ⟨fun h => ?_, fun h => ?_⟩, fun ch h => ?_, fun ch h ht => ?_⟩
  · obtain ⟨a, b⟩ := runWorker_stop cfg evs w
    refine ⟨?_, fun h3 => ?_⟩
    · have : stopAttempts w.pc ≤ 1 := by cases w.pc <;> simp [stopAttempts]
      omega
    · have : stopRank w.pc ≤ 3 := by cases w.pc <;> simp [stopRank]
      have h0 : stopRank (runWorker cfg evs (true, w)).2.pc = 0 := by omega
      revert h0
      cases (runWorker cfg evs (true, w)).2.pc <;> simp [stopRank]
  · rcases w with ⟨id, pc, m, att, out⟩
    cases pc with
    | send => rfl
    | check => exfalso; apply h; cases stop <;> rfl
    | sleep => exfalso; apply h; simp only [workerStep]; split_ifs <;> rfl
    | done => exfalso; exact h rfl
  · rcases w with ⟨id, pc, m, att, out⟩
    cases pc with
    | check => cases stop <;> simp_all [workerStep]
    | send => simp only [workerStep] at h; split_ifs at h
    | sleep => simp only [workerStep] at h; split_ifs at h
    | done => simp [workerStep] at h
  · rcases w with ⟨id, pc, m, att, out⟩
    simp only at h
    subst h
    simp [workerStep]
  · rcases w with ⟨id, pc, m, att, out⟩
    simp only at h
    subst h
    simp [workerStep, ht]

/-- An unbounded worker asleep between two messages when `stop` is closed
returns at once, with no further attempt. -/
theorem worker_stops_witness :
    workerStep { proto := "tcp", count := 0, workers := 1, intervalMs := 1000 } true ⟨none, false⟩
        { id := 0, pc := PC.sleep, msgsSent := 5, attempts := List.replicate 5 none, out := [] } =
      { id := 0, pc := PC.done, msgsSent := 5, attempts := List.replicate 5 none, out := [] } ∧
    (workerStep { proto := "tcp", count := 0, workers := 1, intervalMs := 1000 } true ⟨none, false⟩
        { id := 0, pc := PC.check, msgsSent := 5, attempts := List.replicate 5 none, out := [] }).pc
      = PC.done :=
  ⟨(worker_stops { proto := "tcp", count := 0, workers := 1, intervalMs := 1000 }
      { id := 0, pc := PC.sleep, msgsSent := 5, attempts := List.replicate 5 none, out := [] }).2.2.2
      ⟨none, false⟩ rfl rfl,
   by decide⟩

/-! ## `bufio.Scanner` with `ScanLines` -/

theorem IndexByte_none (p : Bytes) (c : Byte) (h : c ∉ p) : IndexByte p c = none := by
  induction p with
  | nil => rfl
  | cons b rest ih =>
    have hb : b ≠ c := fun e => h (e ▸ List.mem_cons_self _ _)
    have hr : c ∉ rest := fun e => h (List.mem_cons_of_mem _ e)
    simp [IndexByte, hb, ih hr]

theorem IndexByte_append (l r : Bytes) (c : Byte) (h : c ∉ l) :
    IndexByte (l ++ c :: r) c = some l.length := by
  induction l with
  | nil => simp [IndexByte]
  | cons b rest ih =>
    have hb : b ≠ c := fun e => h (e ▸ List.mem_cons_self _ _)
    have hr : c ∉ rest := fun e => h (List.mem_cons_of_mem _ e)
    simp [IndexByte, hb, ih hr]

/-- A complete line in the buffer is returned, whether or not the stream has ended. -/
theorem ScanLines_line (l r : Bytes) (atEOF : Bool) (h : (0x0A : Byte) ∉ l) :
    ScanLines (l ++ 0x0A :: r) atEOF = (l.length + 1, some (dropCR l)) := by
  unfold ScanLines
  have hlen : ¬ (atEOF = true ∧ (l ++ 0x0A :: r).length = 0) := by simp
  rw [if_neg hlen, IndexByte_append l r _ h]
  simp

/-- Without a newline and before the end of the stream, more data is asked for. -/
theorem ScanLines_more (p : Bytes) (h : (0x0A : Byte) ∉ p) : ScanLines p false = (0, none) := by
  unfold ScanLines
  simp [IndexByte_none p _ h]

/-- At the end of the stream the unread bytes are the last line. -/
theorem ScanLines_last (p : Bytes) (h : (0x0A : Byte) ∉ p) (hne : p ≠ []) :
    ScanLines p true = (p.length, some (dropCR p)) := by
  unfold ScanLines
  have : ¬ (true = true ∧ p.length = 0) := by simp [hne]
  rw [if_neg this, IndexByte_none p _ h]
  simp

theorem split_at_byte (p d l rest : Bytes) (c : Byte) (hl : c ∉ l)
    (h : p ++ d = l ++ c :: rest) :
    (c ∈ p → ∃ p1, p = l ++ c :: p1 ∧ rest = p1 ++ d) ∧
    (c ∉ p → ∃ l2, l = p ++ l2 ∧ d = l2 ++ c :: rest) := by
  rcases List.append_eq_append_iff.mp h with ⟨a, ha, hd⟩ | ⟨b, hb, hc⟩
  · refine ⟨fun hp => ?_, fun _ => ⟨a, ha, hd⟩⟩
    exact absurd (ha ▸ List.mem_append_left _ hp) hl
  · cases b with
    | nil =>
      simp only [List.append_nil] at hb
      simp only [List.nil_append] at hc
      subst hb
      exact ⟨fun hp => absurd hp hl, fun _ => ⟨[], by simp, hc.symm⟩⟩
    | cons x b1 =>
      simp only [List.cons_append, List.cons.injEq] at hc
      obtain ⟨rfl, hrest⟩ := hc
      refine ⟨fun _ => ⟨b1, hb, hrest⟩, fun hp => ?_⟩
      exact absurd (hb ▸ List.mem_append_right _ (List.mem_cons_self _ _)) hp

/-- A round that finds a token returns it. -/
theorem round_token (s : Scanner) (adv : Nat) (tok : Bytes)
    (h1 : s.pending.length > 0 ∨ s.err ≠ none)
    (h2 : ScanLines s.pending (decide (s.err ≠ none)) = (adv, some tok)) :
    s.round = Sum.inl
      (true, { s with start := s.start + adv, pending := s.pending.drop adv, token := tok }) := by
  unfold Scanner.round
  simp only [if_pos h1, h2]

/-- The split function finds nothing among unread bytes without a newline
when there is no sticky error. -/
theorem split_none (s : Scanner) (herr : s.err = none) (hnl : (0x0A : Byte) ∉ s.pending) :
    (if s.pending.length > 0 ∨ s.err ≠ none then
      ScanLines s.pending (decide (s.err ≠ none)) else (0, none)) = (0, none) := by
  split
  · simp only [herr, ne_eq, not_true_eq_false, decide_False]
    exact ScanLines_more _ hnl
  · rfl

/-- A round with no sticky error and no newline among fewer than
`MaxScanTokenSize` unread bytes makes room in the buffer and reads. -/
theorem round_read (s : Scanner) (herr : s.err = none)
    (hnl : (0x0A : Byte) ∉ s.pending) (hfit : s.start + s.pending.length ≤ s.bufLen)
    (hmax : s.bufLen ≤ MaxScanTokenSize) (hlen : s.pending.length < MaxScanTokenSize) :
    ∃ b st, s.round = Sum.inr ({ s with bufLen := b, start := st } : Scanner).fill ∧
      b ≤ MaxScanTokenSize ∧ st + s.pending.length < b := by
  unfold Scanner.round
  simp only [split_none s herr hnl]
  have hne : ¬ s.err ≠ none := by simp [herr]
  simp only [Nat.add_zero, List.drop_zero, if_neg hne]
  by_cases hshift : s.start > 0 ∧
      (s.start + s.pending.length = s.bufLen ∨ s.start > s.bufLen / 2)
  · simp only [if_pos hshift, Nat.zero_add]
    by_cases hfull : s.pending.length = s.bufLen
    · simp only [if_pos hfull]
      have hnm : ¬ s.bufLen ≥ MaxScanTokenSize := by omega
      simp only [if_neg hnm]
      refine ⟨_, 0, rfl, by simp, ?_⟩
      simp only [MaxScanTokenSize, startBufSize] at *
      split <;> omega
    · simp only [if_neg hfull]
      exact ⟨s.bufLen, 0, rfl, hmax, by omega⟩
  · simp only [if_neg hshift]
    by_cases hfull : s.start + s.pending.length = s.bufLen
    · simp only [if_pos hfull]
      have hst : s.start = 0 := by
        by_contra h0
        exact hshift ⟨by omega, Or.inl hfull⟩
      have hnm : ¬ s.bufLen ≥ MaxScanTokenSize := by omega
      simp only [if_neg hnm]
      refine ⟨_, 0, rfl, by simp, ?_⟩
      simp only [MaxScanTokenSize, startBufSize] at *
      split <;> omega
    · simp only [if_neg hfull]
      exact ⟨s.bufLen, s.start, rfl, hmax, by omega⟩

/-- A round with `MaxScanTokenSize` unread bytes and no newline among them
fails with `ErrTooLong`. -/
theorem round_too_long (s : Scanner) (herr : s.err = none)
    (hnl : (0x0A : Byte) ∉ s.pending) (hfit : s.start + s.pending.length ≤ s.bufLen)
    (hmax : s.bufLen ≤ MaxScanTokenSize) (hlen : s.pending.length = MaxScanTokenSize) :
    ∃ s1, s.round = Sum.inl (false, s1) ∧ s1.err = some ScanErr.ErrTooLong := by
  unfold Scanner.round
  simp only [split_none s herr hnl]
  have hne : ¬ s.err ≠ none := by simp [herr]
  simp only [Nat.add_zero, List.drop_zero, if_neg hne]
  have hst : s.start = 0 := by omega
  have hshift : ¬ (s.start > 0 ∧
      (s.start + s.pending.length = s.bufLen ∨ s.start > s.bufLen / 2)) := by omega
  have hfull : s.start + s.pending.length = s.bufLen := by omega
  have hm : s.bufLen ≥ MaxScanTokenSize := by omega
  simp only [if_neg hshift, if_pos hfull, if_pos hm]
  exact ⟨_, rfl, by simp [Scanner.setErr, herr]⟩

/-- After the end of the stream, with nothing unread, `Scan` returns false
and keeps the error. -/
theorem round_ended (s : Scanner) (e : ScanErr) (herr : s.err = some e) (hp : s.pending = []) :
    s.round = Sum.inl (false, { s with start := 0, pending := [] }) := by
  unfold Scanner.round
  have h1 : s.pending.length > 0 ∨ s.err ≠ none := Or.inr (by simp [herr])
  have h2 : ScanLines s.pending (decide (s.err ≠ none)) = (0, none) := by
    simp [hp, herr, ScanLines]
  have hne : s.err ≠ none := by simp [herr]
  simp only [if_pos h1, h2, Nat.add_zero, List.drop_zero, if_pos hne]

/-- A read with room in the buffer and bytes to come takes at least one byte
and no more than fit. -/
theorem fill_data (s : Scanner) (hd : s.r.data ≠ [])
    (hroom : s.start + s.pending.length < s.bufLen) :
    ∃ n, 1 ≤ n ∧ n ≤ s.r.data.length ∧ s.start + s.pending.length + n ≤ s.bufLen ∧
      s.fill = { s with
        r := { s.r with data := s.r.data.drop n, chunks := s.r.chunks.tail },
        pending := s.pending ++ s.r.data.take n } := by
  obtain ⟨r, bufLen, start, pending, err, token⟩ := s
  obtain ⟨addr, data, chunks, closeErr⟩ := r
  simp only at hd hroom ⊢
  cases data with
  | nil => exact absurd rfl hd
  | cons x xs =>
    cases chunks with
    | nil =>
      refine ⟨min (x :: xs).length (bufLen - (start + pending.length)), ?_, ?_, ?_, ?_⟩
      · simp only [List.length_cons]; omega
      · exact Nat.min_le_left _ _
      · omega
      · simp [Scanner.fill, Conn.Read]
    | cons k ks =>
      refine ⟨min (min (max k 1) (x :: xs).length) (bufLen - (start + pending.length)),
        ?_, ?_, ?_, ?_⟩
      · simp only [List.length_cons]; omega
      · omega
      · omega
      · simp [Scanner.fill, Conn.Read]

/-- A read at the end of the stream records how the stream ended. -/
theorem fill_end (s : Scanner) (hd : s.r.data = []) (herr : s.err = none) :
    s.fill = { s with err := some s.r.closeError } := by
  obtain ⟨r, bufLen, start, pending, err, token⟩ := s
  obtain ⟨addr, data, chunks, closeErr⟩ := r
  simp only at hd herr
  subst hd herr
  simp [Scanner.fill, Conn.Read, Scanner.setErr]

/-- With a complete line of fewer than `MaxScanTokenSize` bytes ahead in the
stream, however it arrives, `Scan` returns that line without its end-of-line
marker and leaves the rest of the stream unread. -/
theorem Scan_line (l rest : Bytes) (hnl : (0x0A : Byte) ∉ l) (hlen : l.length < MaxScanTokenSize) :
    ∀ (fuel : Nat) (s : Scanner), s.Good → s.pending ++ s.r.data = l ++ 0x0A :: rest →
      s.r.data.length + 1 ≤ fuel →
      ∃ s1, s.Scan fuel = (true, s1) ∧ s1.token = dropCR l ∧ s1.Good ∧
        s1.pending ++ s1.r.data = rest ∧ s1.r.closeErr = s.r.closeErr ∧
        s1.r.remoteAddr = s.r.remoteAddr := by
  intro fuel
  induction fuel with
  | zero => intro s _ _ h; omega
  | succ fuel ih =>
    intro s hgood hstream hfuel
    obtain ⟨herr, hmax, hfit⟩ := hgood
    obtain ⟨hin, hout⟩ := split_at_byte s.pending s.r.data l rest 0x0A hnl hstream
    by_cases hmem : (0x0A : Byte) ∈ s.pending
    · obtain ⟨p1, hp, hrest⟩ := hin hmem
      have h1 : s.pending.length > 0 ∨ s.err ≠ none := Or.inl (by rw [hp]; simp)
      have h2 : ScanLines s.pending (decide (s.err ≠ none)) = (l.length + 1, some (dropCR l)) := by
        rw [hp]; exact ScanLines_line l p1 _ hnl
      have hdrop : s.pending.drop (l.length + 1) = p1 := by
        have e1 : l ++ 0x0A :: p1 = (l ++ [0x0A]) ++ p1 := by simp
        have e2 : l.length + 1 = (l ++ [(0x0A : Byte)]).length := by simp
        rw [hp, e1, e2, List.drop_left]
      refine ⟨{ s with start := s.start + (l.length + 1),
                       pending := s.pending.drop (l.length + 1), token := dropCR l },
        by simp only [Scanner.Scan, round_token s _ _ h1 h2], rfl, ⟨herr, hmax, ?_⟩,
        ?_, rfl, rfl⟩
      · simp only [hdrop]
        have : s.pending.length = l.length + 1 + p1.length := by rw [hp]; simp; omega
        omega
      · simp only [hdrop, hrest]
    · obtain ⟨l2, hl, hd⟩ := hout hmem
      have hplen : s.pending.length < MaxScanTokenSize := by
        have : l.length = s.pending.length + l2.length := by rw [hl]; simp
        omega
      obtain ⟨b, st, hround, hb, hroom⟩ := round_read s herr hmem hfit hmax hplen
      have hdne : s.r.data ≠ [] := by rw [hd]; simp
      obtain ⟨n, hn1, hn2, hn3, hfill⟩ :=
        fill_data ({ s with bufLen := b, start := st } : Scanner) hdne hroom
      simp only at hn2 hn3 hfill
      have hnext := ih
        ({ s with
           r := { s.r with data := s.r.data.drop n, chunks := s.r.chunks.tail },
           bufLen := b, start := st, pending := s.pending ++ s.r.data.take n } : Scanner)
        ⟨herr, hb, by simp only [List.length_append, List.length_take]; omega⟩
        (by simp only [List.append_assoc, List.take_append_drop]; exact hstream)
        (by simp only [List.length_drop]; omega)
      obtain ⟨s1, hs1, htok, hg, hrest, hce, hra⟩ := hnext
      refine ⟨s1, ?_, htok, hg, hrest, hce, hra⟩
      simp only [Scanner.Scan, hround, hfill]
      exact hs1

/-- Once the stream has ended and nothing is unread, `Scan` returns false and
the error stays. -/
theorem Scan_ended (fuel : Nat) (s : Scanner) (e : ScanErr) (herr : s.err = some e)
    (hp : s.pending = []) :
    ∃ s1, s.Scan (fuel + 1) = (false, s1) ∧ s1.err = some e := by
  exact ⟨{ s with start := 0, pending := [] },
    by simp only [Scanner.Scan, round_ended s e herr hp], herr⟩

/-- With fewer than `MaxScanTokenSize` bytes and no newline left in the
stream, `Scan` returns them as the last line if there are any, and false if
there are none; either way the scanner has met the end of the stream. -/
theorem Scan_last (tail : Bytes) (hnl : (0x0A : Byte) ∉ tail)
    (hlen : tail.length < MaxScanTokenSize) :
    ∀ (fuel : Nat) (s : Scanner), s.Good → s.pending ++ s.r.data = tail →
      s.r.data.length + 2 ≤ fuel →
      ∃ s1, s.Scan fuel = (decide (tail ≠ []), s1) ∧ (tail ≠ [] → s1.token = dropCR tail) ∧
        s1.err = some s.r.closeError ∧ s1.pending = [] ∧ s1.r.remoteAddr = s.r.remoteAddr := by
  intro fuel
  induction fuel with
  | zero => intro s _ _ h; omega
  | succ fuel ih =>
    intro s hgood hstream hfuel
    obtain ⟨herr, hmax, hfit⟩ := hgood
    have hmem : (0x0A : Byte) ∉ s.pending := fun h =>
      hnl (hstream ▸ List.mem_append_left _ h)
    have hplen : s.pending.length < MaxScanTokenSize := by
      have : tail.length = s.pending.length + s.r.data.length := by rw [← hstream]; simp
      omega
    obtain ⟨b, st, hround, hb, hroom⟩ := round_read s herr hmem hfit hmax hplen
    by_cases hdne : s.r.data = []
    · have hfill := fill_end ({ s with bufLen := b, start := st } : Scanner) hdne herr
      simp only at hfill
      have htail : s.pending = tail := by rw [← hstream, hdne, List.append_nil]
      obtain ⟨fuel1, rfl⟩ : ∃ k, fuel = k + 1 := ⟨fuel - 1, by omega⟩
      by_cases hp : s.pending = []
      · have hte : tail = [] := by rw [← htail, hp]
        refine ⟨{ s with bufLen := b, start := 0, pending := [], err := some s.r.closeError },
          ?_, fun h => absurd hte h, rfl, rfl, rfl⟩
        simp only [Scanner.Scan, hround, hfill]
        rw [round_ended ({ s with bufLen := b, start := st, err := some s.r.closeError } : Scanner)
          s.r.closeError rfl hp]
        simp [hte]
      · have hte : tail ≠ [] := by rw [← htail]; exact hp
        have h1 : s.pending.length > 0 ∨ (some s.r.closeError : Option ScanErr) ≠ none :=
          Or.inr (by simp)
        have h2 : ScanLines s.pending (decide ((some s.r.closeError : Option ScanErr) ≠ none)) =
            (s.pending.length, some (dropCR s.pending)) := by
          simp only [ne_eq, reduceCtorEq, not_false_eq_true, decide_True]
          exact ScanLines_last _ hmem hp
        refine ⟨{ s with bufLen := b, start := st + s.pending.length,
                         pending := s.pending.drop s.pending.length,
                         err := some s.r.closeError, token := dropCR s.pending },
          ?_, fun _ => by rw [← htail], rfl, by simp, rfl⟩
        simp only [Scanner.Scan, hround, hfill]
        rw [round_token ({ s with bufLen := b, start := st, err := some s.r.closeError } : Scanner)
          _ _ h1 h2]
        simp [hte]
    · obtain ⟨n, hn1, hn2, hn3, hfill⟩ :=
        fill_data ({ s with bufLen := b, start := st } : Scanner) hdne hroom
      simp only at hn2 hn3 hfill
      have hnext := ih
        ({ s with
           r := { s.r with data := s.r.data.drop n, chunks := s.r.chunks.tail },
           bufLen := b, start := st, pending := s.pending ++ s.r.data.take n } : Scanner)
        ⟨herr, hb, by simp only [List.length_append, List.length_take]; omega⟩
        (by simp only [List.append_assoc, List.take_append_drop]; exact hstream)
        (by simp only [List.length_drop]; omega)
      obtain ⟨s1, hs1, htok, he, hpe, hra⟩ := hnext
      refine ⟨s1, ?_, htok, he, hpe, hra⟩
      simp only [Scanner.Scan, hround, hfill]
      exact hs1

/-- With `MaxScanTokenSize` bytes or more ahead in the stream and no newline
among the first `MaxScanTokenSize`, `Scan` fails with `ErrTooLong`. -/
theorem Scan_too_long (total : Bytes) (hnl : (0x0A : Byte) ∉ total.take MaxScanTokenSize)
    (hlen : MaxScanTokenSize ≤ total.length) :
    ∀ (fuel : Nat) (s : Scanner), s.Good → s.pending ++ s.r.data = total →
      s.r.data.length + 1 ≤ fuel →
      ∃ s1, s.Scan fuel = (false, s1) ∧ s1.err = some ScanErr.ErrTooLong := by
  intro fuel
  induction fuel with
  | zero => intro s _ _ h; omega
  | succ fuel ih =>
    intro s hgood hstream hfuel
    obtain ⟨herr, hmax, hfit⟩ := hgood
    have hmem : (0x0A : Byte) ∉ s.pending := by
      intro h
      apply hnl
      rw [← hstream, List.take_append_eq_append_take]
      apply List.mem_append_left
      rw [List.take_of_length_le (by omega)]
      exact h
    have htl : total.length = s.pending.length + s.r.data.length := by rw [← hstream]; simp
    by_cases hfulllen : s.pending.length = MaxScanTokenSize
    · obtain ⟨s1, hr, he⟩ := round_too_long s herr hmem hfit hmax hfulllen
      exact ⟨s1, by simp only [Scanner.Scan, hr], he⟩
    · have hplen : s.pending.length < MaxScanTokenSize := by omega
      obtain ⟨b, st, hround, hb, hroom⟩ := round_read s herr hmem hfit hmax hplen
      have hdne : s.r.data ≠ [] := by
        intro h
        rw [h] at htl
        simp at htl
        omega
      obtain ⟨n, hn1, hn2, hn3, hfill⟩ :=
        fill_data ({ s with bufLen := b, start := st } : Scanner) hdne hroom
      simp only at hn2 hn3 hfill
      have hnext := ih
        ({ s with
           r := { s.r with data := s.r.data.drop n, chunks := s.r.chunks.tail },
           bufLen := b, start := st, pending := s.pending ++ s.r.data.take n } : Scanner)
        ⟨herr, hb, by simp only [List.length_append, List.length_take]; omega⟩
        (by simp only [List.append_assoc, List.take_append_drop]; exact hstream)
        (by simp only [List.length_drop]; omega)
      obtain ⟨s1, hs1, he⟩ := hnext
      refine ⟨s1, ?_, he⟩
      simp only [Scanner.Scan, hround, hfill]
      exact hs1

/-! ## `handleTCPConn` -/

/-- The loop of `handleTCPConn` logs the complete lines ahead in the stream,
one entry each, in order. -/
theorem handleTCPConnLoop_lines (raddr : String) (tail : Bytes) :
    ∀ (lines : List Bytes) (fuel : Nat) (s : Scanner) (l : Logger),
      (∀ x ∈ lines, (0x0A : Byte) ∉ x ∧ x.length < MaxScanTokenSize) →
      s.Good → s.pending ++ s.r.data = joinLines lines ++ tail →
      ∃ s1, handleTCPConnLoop raddr (lines.length + fuel) s l =
          handleTCPConnLoop raddr fuel s1 (logTokens raddr l (lines.map dropCR)) ∧
        s1.Good ∧ s1.pending ++ s1.r.data = tail ∧ s1.r.closeErr = s.r.closeErr ∧
        s1.r.remoteAddr = s.r.remoteAddr := by
  intro lines
  induction lines with
  | nil =>
    intro fuel s l _ hg hs
    exact ⟨s, by simp [logTokens], hg, by simpa [joinLines] using hs, rfl, rfl⟩
  | cons x rest ih =>
    intro fuel s l hall hg hs
    obtain ⟨hx1, hx2⟩ := hall x (List.mem_cons_self _ _)
    have hs1 : s.pending ++ s.r.data = x ++ 0x0A :: (joinLines rest ++ tail) := by
      rw [hs]; simp [joinLines]
    obtain ⟨s1, hscan, htok, hg1, hrest, hce, hra⟩ :=
      Scan_line x _ hx1 hx2 (s.r.data.length + 2) s hg hs1 (by omega)
    obtain ⟨s2, hloop, hg2, hrest2, hce2, hra2⟩ :=
      ih fuel s1 (logEntry l "TCP" raddr s1.Bytes)
        (fun y hy => hall y (List.mem_cons_of_mem _ hy)) hg1 hrest
    refine ⟨s2, ?_, hg2, hrest2, hce2.trans hce, hra2.trans hra⟩
    have hf : (x :: rest).length + fuel = (rest.length + fuel) + 1 := by
      simp only [List.length_cons]; omega
    rw [hf]
    simp only [handleTCPConnLoop, hscan]
    rw [hloop]
    simp [logTokens, Scanner.Bytes, htok]

/-- The loop of `handleTCPConn` at the last, unterminated line of a stream. -/
theorem handleTCPConnLoop_last (raddr : String) (tail : Bytes) (hnl : (0x0A : Byte) ∉ tail)
    (hlen : tail.length < MaxScanTokenSize) (fuel : Nat) (s : Scanner) (l : Logger)
    (hg : s.Good) (hs : s.pending ++ s.r.data = tail) :
    ∃ s1, handleTCPConnLoop raddr (fuel + 2) s l =
        (s1, logTokens raddr l (if tail = [] then [] else [dropCR tail])) ∧
      s1.err = some s.r.closeError := by
  obtain ⟨s1, hscan, htok, herr, hp, _⟩ :=
    Scan_last tail hnl hlen (s.r.data.length + 2) s hg hs (le_refl _)
  by_cases ht : tail = []
  · refine ⟨s1, ?_, herr⟩
    have hd : decide (tail ≠ []) = false := by simp [ht]
    rw [hd] at hscan
    simp only [handleTCPConnLoop, hscan, ht, if_true, logTokens, List.foldl_nil]
  · obtain ⟨s2, hscan2, herr2⟩ := Scan_ended (s1.r.data.length + 1) s1 _ herr hp
    refine ⟨s2, ?_, herr2⟩
    have hd : decide (tail ≠ []) = true := by simp [ht]
    rw [hd] at hscan
    simp only [handleTCPConnLoop, hscan, hscan2, if_neg ht, logTokens, List.foldl_cons,
      List.foldl_nil, Scanner.Bytes, htok ht]

theorem length_joinLines_ge (lines : List Bytes) : lines.length ≤ (joinLines lines).length := by
  induction lines with
  | nil => simp
  | cons x rest ih => simp only [joinLines, List.length_append, List.length_cons]; omega

theorem logTokens_now (raddr : String) (tokens : List Bytes) :
    ∀ l : Logger, (logTokens raddr l tokens).now = l.now := by
  induction tokens with
  | nil => intro l; rfl
  | cons t rest ih =>
    intro l
    simp only [logTokens, List.foldl_cons] at ih ⊢
    rw [ih]
    rfl

/-- What `handleTCPConn` writes for a stream of lines none of which reaches
`MaxScanTokenSize`: one entry for each complete line, in order, one more for
a last line that is not empty and has no newline, each without the carriage
return that ends it, and then the error line if the stream ended in an error. -/
theorem handleTCPConn_stream (l : Logger) (conn : Conn) (lines : List Bytes) (tail : Bytes)
    (hdata : conn.data = joinLines lines ++ tail)
    (hall : ∀ x ∈ lines, (0x0A : Byte) ∉ x ∧ x.length < MaxScanTokenSize)
    (hnl : (0x0A : Byte) ∉ tail) (hlen : tail.length < MaxScanTokenSize) :
    (handleTCPConn l conn).out =
      (logTokens conn.remoteAddr l
        (lines.map dropCR ++ (if tail = [] then [] else [dropCR tail]))).out
      ++ readErrorLines conn := by
  have hg : (NewScanner conn).Good := ⟨rfl, by simp [NewScanner], by simp [NewScanner]⟩
  obtain ⟨s1, hloop, hg1, hrest, hce, _⟩ :=
    handleTCPConnLoop_lines conn.remoteAddr tail lines
      (conn.data.length + 1 - lines.length) (NewScanner conn) l hall hg
      (by simpa [NewScanner] using hdata)
  have hlen1 : lines.length + (conn.data.length + 1 - lines.length) = conn.data.length + 1 := by
    have := length_joinLines_ge lines
    have : conn.data.length = (joinLines lines).length + tail.length := by rw [hdata]; simp
    omega
  rw [hlen1] at hloop
  by_cases ht : tail = []
  · -- one more call of `Scan`, which returns false
    obtain ⟨k, hk⟩ : ∃ k, conn.data.length + 1 - lines.length = k + 1 := by
      have := length_joinLines_ge lines
      have : conn.data.length = (joinLines lines).length + tail.length := by rw [hdata]; simp
      exact ⟨conn.data.length - lines.length, by omega⟩
    obtain ⟨s2, hscan, _, herr, _, _⟩ :=
      Scan_last tail hnl hlen (s1.r.data.length + 2) s1 hg1 hrest (le_refl _)
    have hd : decide (tail ≠ []) = false := by simp [ht]
    rw [hd] at hscan
    have hfin : handleTCPConnLoop conn.remoteAddr (k + 1) s1
        (logTokens conn.remoteAddr l (lines.map dropCR)) =
        (s2, logTokens conn.remoteAddr l (lines.map dropCR)) := by
      simp only [handleTCPConnLoop, hscan]
    rw [hk, hfin] at hloop
    unfold handleTCPConn
    simp only [hloop, ht, if_true, List.append_nil]
    have hErr : s2.Err = conn.closeErr.map ScanErr.other := by
      simp only [Scanner.Err, herr, Conn.closeError, hce, NewScanner]
      cases conn.closeErr <;> simp
    rw [hErr]
    cases hc : conn.closeErr with
    | none => simp [readErrorLines, hc]
    | some msg => simp [readErrorLines, hc, Logger.write, ScanErr.Error]
  · obtain ⟨k, hk⟩ : ∃ k, conn.data.length + 1 - lines.length = k + 2 := by
      have := length_joinLines_ge lines
      have h1 : conn.data.length = (joinLines lines).length + tail.length := by rw [hdata]; simp
      have h2 : 0 < tail.length := List.length_pos.mpr ht
      exact ⟨conn.data.length - lines.length - 1, by omega⟩
    obtain ⟨s2, hlast, herr⟩ :=
      handleTCPConnLoop_last conn.remoteAddr tail hnl hlen k s1
        (logTokens conn.remoteAddr l (lines.map dropCR)) hg1 hrest
    rw [hk, hlast] at hloop
    unfold handleTCPConn
    simp only [hloop, if_neg ht]
    have hErr : s2.Err = conn.closeErr.map ScanErr.other := by
      simp only [Scanner.Err, herr, Conn.closeError, hce, NewScanner]
      cases conn.closeErr <;> simp
    rw [hErr]
    have hfold : logTokens conn.remoteAddr (logTokens conn.remoteAddr l (lines.map dropCR))
        [dropCR tail] = logTokens conn.remoteAddr l (lines.map dropCR ++ [dropCR tail]) := by
      simp [logTokens, List.foldl_append]
    rw [hfold]
    cases hc : conn.closeErr with
    | none => simp [readErrorLines, hc]
    | some msg => simp [readErrorLines, hc, Logger.write, ScanErr.Error]

/-- What `handleTCPConn` writes when a line of the stream reaches
`MaxScanTokenSize`: the entries of the lines before it, then the error line
of `bufio.ErrTooLong`, and nothing for that line or any line after it. -/
theorem handleTCPConn_too_long (l : Logger) (conn : Conn) (lines : List Bytes) (tail : Bytes)
    (hdata : conn.data = joinLines lines ++ tail)
    (hall : ∀ x ∈ lines, (0x0A : Byte) ∉ x ∧ x.length < MaxScanTokenSize)
    (hnl : (0x0A : Byte) ∉ tail.take MaxScanTokenSize) (hlen : MaxScanTokenSize ≤ tail.length) :
    (handleTCPConn l conn).out =
      (logTokens conn.remoteAddr l (lines.map dropCR)).out ++
        [LogLine.message ("TCP read error from " ++ conn.remoteAddr ++ ": " ++
          ScanErr.ErrTooLong.Error)] := by
  have hg : (NewScanner conn).Good := ⟨rfl, by simp [NewScanner], by simp [NewScanner]⟩
  obtain ⟨s1, hloop, hg1, hrest, hce, _⟩ :=
    handleTCPConnLoop_lines conn.remoteAddr tail lines
      (conn.data.length + 1 - lines.length) (NewScanner conn) l hall hg
      (by simpa [NewScanner] using hdata)
  have hcl : conn.data.length = (joinLines lines).length + tail.length := by rw [hdata]; simp
  have hlen1 : lines.length + (conn.data.length + 1 - lines.length) = conn.data.length + 1 := by
    have := length_joinLines_ge lines
    omega
  rw [hlen1] at hloop
  obtain ⟨k, hk⟩ : ∃ k, conn.data.length + 1 - lines.length = k + 1 := by
    have := length_joinLines_ge lines
    exact ⟨conn.data.length - lines.length, by omega⟩
  obtain ⟨s2, hscan, herr⟩ :=
    Scan_too_long tail hnl hlen (s1.r.data.length + 2) s1 hg1 hrest (by omega)
  have hfin : handleTCPConnLoop conn.remoteAddr (k + 1) s1
      (logTokens conn.remoteAddr l (lines.map dropCR)) =
      (s2, logTokens conn.remoteAddr l (lines.map dropCR)) := by
    simp only [handleTCPConnLoop, hscan]
  rw [hk, hfin] at hloop
  unfold handleTCPConn
  simp only [hloop]
  have hErr : s2.Err = some ScanErr.ErrTooLong := by simp [Scanner.Err, herr]
  rw [hErr]
  simp [Logger.write]

/-- A token that does not end in a carriage return is left as it is. -/
theorem dropCR_id (x : Bytes) (h : x.getLast? ≠ some 0x0D) : dropCR x = x := by
  unfold dropCR
  split
  · rename_i hc
    exfalso
    apply h
    obtain ⟨hpos, hget⟩ := hc
    rw [List.getLast?_eq_getElem?, ← hget, List.getD_eq_getElem?_getD]
    have : x.length - 1 < x.length := by omega
    simp [List.getElem?_eq_getElem this]
  · rfl

/-- The entries `logTokens` writes: one for each token, in order, each built
from its token. -/
theorem logTokens_entries (raddr : String) :
    ∀ (tokens : List Bytes) (l : Logger),
      ∃ es : List LogEntry,
        (logTokens raddr l tokens).out = l.out ++ es.map LogLine.entry ∧
        List.Forall₂ (fun e x => e.Proto = "TCP" ∧ e.Src = raddr ∧ e.Len = x.length ∧
          e.Hex = EncodeToString x ∧ e.Text = previewByBytes x) es tokens := by
  intro tokens
  induction tokens with
  | nil => intro l; exact ⟨[], by simp [logTokens], List.Forall₂.nil⟩
  | cons t rest ih =>
    intro l
    obtain ⟨es, hout, hall⟩ := ih (logEntry l "TCP" raddr t)
    refine ⟨{ Timestamp := l.now l.out.length, Proto := "TCP", Src := raddr, Len := t.length,
              Text := previewByBytes t, Hex := EncodeToString t, Path := "", Method := "" } :: es,
      ?_, List.Forall₂.cons ⟨rfl, rfl, rfl, rfl, rfl⟩ hall⟩
    simp only [logTokens, List.foldl_cons] at hout ⊢
    rw [hout]
    simp [logEntry, Logger.write, previewByBytes, cutAt256]

theorem map_dropCR_id (lines : List Bytes) (h : ∀ x ∈ lines, x.getLast? ≠ some 0x0D) :
    lines.map dropCR = lines := by
  induction lines with
  | nil => rfl
  | cons x rest ih =>
    simp only [List.map_cons]
    rw [dropCR_id x (h x (List.mem_cons_self _ _)),
      ih (fun y hy => h y (List.mem_cons_of_mem _ hy))]

/-- The texts of entries built from tokens are the previews of the tokens. -/
theorem entries_text (es : List LogEntry) (tokens : List Bytes) {raddr : String}
    (h : List.Forall₂ (fun e x => e.Proto = "TCP" ∧ e.Src = raddr ∧ e.Len = x.length ∧
      e.Hex = EncodeToString x ∧ e.Text = previewByBytes x) es tokens) :
    es.map (fun e => e.Text) = tokens.map previewByBytes := by
  induction h with
  | nil => rfl
  | cons hx _ ih => simp only [List.map_cons, ih, hx.2.2.2.2]

/-! ## TCP lines -/

theorem hugeLine_no_newline : (0x0A : Byte) ∉ hugeLine := by
  unfold hugeLine
  intro h
  exact absurd (List.mem_replicate.mp h).2 (by decide)

theorem hugeLine_length : hugeLine.length = MaxScanTokenSize := by
  unfold hugeLine
  exact List.length_replicate _ _

/-- A stream that opens with a line of `MaxScanTokenSize` bytes is not
logged: `handleTCPConn` writes the error line of `ErrTooLong` only. -/
theorem handleTCPConn_hugeLine (rest : Bytes) :
    (handleTCPConn emptyLog (connOf (hugeLine ++ rest))).out =
      [LogLine.message "TCP read error from 10.0.0.1:4000: bufio.Scanner: token too long"] := by
  have h := handleTCPConn_too_long emptyLog (connOf (hugeLine ++ rest)) [] (hugeLine ++ rest)
    (by simp only [connOf, joinLines, List.nil_append])
    (fun x hx => absurd hx (List.not_mem_nil x))
    (by rw [List.take_left' hugeLine_length]; exact hugeLine_no_newline)
    (by simp only [List.length_append, hugeLine_length]; omega)
  rw [h]
  simp only [logTokens, List.map_nil, List.foldl_nil, emptyLog, List.nil_append, connOf]
  decide

set_option maxRecDepth 1000000 in
/-- Counterexample to claim C4 as worded. A line of 256 letters and a
carriage return, sent with its newline, is logged without the carriage
return: the entry has the 256 letters as text, where the preview of the
line itself is cut and ends in "...".  A line of 65536 letters, sent with
its newline, is not logged at all: the scanner stops with `ErrTooLong`. -/
theorem handleTCPConn_lines_fails :
    (0x0A : Byte) ∉ longLineCR ∧
    (∃ e : LogEntry,
      (handleTCPConn emptyLog (connOf (joinLines [longLineCR]))).out = [LogLine.entry e] ∧
      e.Text = List.replicate 256 0x61 ∧ e.Len = 256 ∧
      previewByBytes longLineCR = List.replicate 256 0x61 ++ ascii "..." ∧
      e.Text ≠ previewByBytes longLineCR) ∧
    (0x0A : Byte) ∉ hugeLine ∧
    (handleTCPConn emptyLog (connOf (joinLines [hugeLine]))).out =
      [LogLine.message "TCP read error from 10.0.0.1:4000: bufio.Scanner: token too long"] := by
  refine ⟨by decide,
    ⟨{ Timestamp := "", Proto := "TCP", Src := "10.0.0.1:4000", Len := 256,
       Text := List.replicate 256 0x61, Hex := EncodeToString (List.replicate 256 0x61),
       Path := "", Method := "" },
     by decide, rfl, rfl, by decide, by decide⟩, hugeLine_no_newline, ?_⟩
  simp only [joinLines]
  exact handleTCPConn_hugeLine _

/-- Claim C4, amended. For every sequence of lines that contain no newline
byte, do not end in a carriage return and are shorter than 65536 bytes, a TCP
connection whose content is each line followed by a newline makes
`handleTCPConn` write exactly one `LogEntry` for each line, in the order of
the lines, the entry of a line built from that line (its length, its hex
encoding, its trimmed preview), however the bytes arrive; after them comes
only the error line if reading ended in an error. -/
theorem handleTCPConn_lines (l : Logger) (conn : Conn) (lines : List Bytes)
    (hdata : conn.data = joinLines lines)
    (hnl : ∀ x ∈ lines, (0x0A : Byte) ∉ x)
    (hcr : ∀ x ∈ lines, x.getLast? ≠ some 0x0D)
    (hlen : ∀ x ∈ lines, x.length < 65536) :
    ∃ es : List LogEntry,
      (handleTCPConn l conn).out = l.out ++ es.map LogLine.entry ++ readErrorLines conn ∧
      es.length = lines.length ∧
      List.Forall₂ (fun e x => e.Proto = "TCP" ∧ e.Src = conn.remoteAddr ∧ e.Len = x.length ∧
        e.Hex = EncodeToString x ∧ e.Text = previewByBytes x) es lines := by
  have h := handleTCPConn_stream l conn lines [] (by simpa using hdata)
    (fun x hx => ⟨hnl x hx, hlen x hx⟩) (by simp) (by simp [MaxScanTokenSize])
  obtain ⟨es, hout, hall⟩ := logTokens_entries conn.remoteAddr lines l
  refine ⟨es, ?_, hall.length_eq, hall⟩
  rw [h]
  simp only [if_true, List.append_nil, map_dropCR_id lines hcr, hout]

/-- The content "a\nb\nc\n", arriving in pieces of 1, 1 and 2 bytes and
then the rest, gives three entries with text a, b, c in that order. -/
theorem handleTCPConn_lines_witness :
    ∃ es : List LogEntry,
      (handleTCPConn emptyLog
        { remoteAddr := "10.0.0.1:4000", data := ascii "a\nb\nc\n", chunks := [1, 1, 2],
          closeErr := none }).out = es.map LogLine.entry ∧
      es.map (fun e => e.Text) = [ascii "a", ascii "b", ascii "c"] := by
  obtain ⟨es, hout, _, hall⟩ := handleTCPConn_lines emptyLog
    { remoteAddr := "10.0.0.1:4000", data := ascii "a\nb\nc\n", chunks := [1, 1, 2],
      closeErr := none }
    [ascii "a", ascii "b", ascii "c"] (by decide) (by decide) (by decide) (by decide)
  refine ⟨es, by simpa [emptyLog, readErrorLines] using hout, ?_⟩
  rw [entries_text es _ hall]
  decide

/-! ## One payload -/

set_option maxRecDepth 1000000 in
/-- Counterexample to claim C3 as worded, on the TCP side. The payload
"hello\n" of 6 bytes gives one entry with `Len` 5; the payload "hello\r" of
6 bytes gives one entry with `Len` 5; the payload "a\nb" gives two entries;
the empty payload gives none; a payload of 65536 letters gives none, and the
error line of `ErrTooLong`. -/
theorem one_payload_fails :
    (∃ e : LogEntry, (handleTCPConn emptyLog (connOf (ascii "hello\n"))).out = [LogLine.entry e] ∧
      e.Len = 5 ∧ (ascii "hello\n").length = 6) ∧
    (∃ e : LogEntry, (handleTCPConn emptyLog (connOf (ascii "hello\r"))).out = [LogLine.entry e] ∧
      e.Len = 5 ∧ (ascii "hello\r").length = 6) ∧
    (∃ e1 e2 : LogEntry, (handleTCPConn emptyLog (connOf (ascii "a\nb"))).out =
      [LogLine.entry e1, LogLine.entry e2]) ∧
    (handleTCPConn emptyLog (connOf [])).out = [] ∧
    (handleTCPConn emptyLog (connOf hugeLine)).out =
      [LogLine.message "TCP read error from 10.0.0.1:4000: bufio.Scanner: token too long"] := by
  refine ⟨⟨{ Timestamp := "", Proto := "TCP", Src := "10.0.0.1:4000", Len := 5,
             Text := ascii "hello", Hex := ascii "68656c6c6f", Path := "", Method := "" },
           by decide, rfl, by decide⟩,
    ⟨{ Timestamp := "", Proto := "TCP", Src := "10.0.0.1:4000", Len := 5,
       Text := ascii "hello", Hex := ascii "68656c6c6f", Path := "", Method := "" },
     by decide, rfl, by decide⟩,
    ⟨{ Timestamp := "", Proto := "TCP", Src := "10.0.0.1:4000", Len := 1,
       Text := ascii "a", Hex := ascii "61", Path := "", Method := "" },
     { Timestamp := "", Proto := "TCP", Src := "10.0.0.1:4000", Len := 1,
       Text := ascii "b", Hex := ascii "62", Path := "", Method := "" }, by decide⟩,
    by decide, ?_⟩
  have h := handleTCPConn_hugeLine []
  rwa [List.append_nil] at h

/-- Claim C3, amended. A payload of length `L` sent as one UDP datagram (of
at most 65535 bytes, the size of the receive buffer) makes the UDP receive
loop write exactly one `LogEntry`, with `Len = L`.  A payload of length `L`
sent as the whole content of one TCP connection makes `handleTCPConn` write
exactly one `LogEntry`, with `Len = L`, when the payload is not empty, holds
no newline byte, does not end in a carriage return and is shorter than 65536
bytes; after the entry comes only the error line if reading ended in an error. -/
theorem one_payload_one_entry (l : Logger) :
    (∀ (payload : Bytes) (remote : String), payload.length ≤ 65535 →
      ∃ e : LogEntry,
        (udpLoop [PacketResult.datagram payload remote] l).log.out = l.out ++ [LogLine.entry e] ∧
        e.Proto = "UDP" ∧ e.Src = remote ∧ e.Len = payload.length ∧
        e.Hex = EncodeToString payload) ∧
    (∀ conn : Conn, conn.data ≠ [] → (0x0A : Byte) ∉ conn.data →
      conn.data.getLast? ≠ some 0x0D → conn.data.length < 65536 →
      ∃ e : LogEntry,
        (handleTCPConn l conn).out = l.out ++ [LogLine.entry e] ++ readErrorLines conn ∧
        e.Proto = "TCP" ∧ e.Src = conn.remoteAddr ∧ e.Len = conn.data.length ∧
        e.Hex = EncodeToString conn.data) := by
  constructor
  · intro payload remote hlen
    have htake : payload.take (min payload.length 65535) = payload := by
      rw [Nat.min_eq_left hlen]; exact List.take_length _
    refine ⟨{ Timestamp := l.now l.out.length, Proto := "UDP", Src := remote,
              Len := payload.length, Text := previewByBytes payload,
              Hex := EncodeToString payload, Path := "", Method := "" }, ?_, rfl, rfl, rfl, rfl⟩
    simp only [udpLoop, htake]
    simp [logEntry, Logger.write, previewByBytes, cutAt256]
  · intro conn hne hnl hcr hlen
    have h := handleTCPConn_stream l conn [] conn.data (by simp [joinLines])
      (fun x hx => absurd hx (List.not_mem_nil x)) hnl (by simpa [MaxScanTokenSize] using hlen)
    refine ⟨{ Timestamp := l.now l.out.length, Proto := "TCP", Src := conn.remoteAddr,
              Len := conn.data.length, Text := previewByBytes conn.data,
              Hex := EncodeToString conn.data, Path := "", Method := "" },
      ?_, rfl, rfl, rfl, rfl⟩
    rw [h]
    simp only [List.map_nil, List.nil_append, if_neg hne, dropCR_id conn.data hcr]
    simp [logTokens, logEntry, Logger.write, previewByBytes, cutAt256]

/-- The payload "hello" gives one entry with `Len` 5, sent as a UDP datagram
or as the content of a TCP connection. -/
theorem one_payload_one_entry_witness :
    (∃ e : LogEntry,
      (udpLoop [PacketResult.datagram (ascii "hello") "10.0.0.1:4000"] emptyLog).log.out =
        [LogLine.entry e] ∧ e.Len = 5) ∧
    (∃ e : LogEntry, (handleTCPConn emptyLog (connOf (ascii "hello"))).out = [LogLine.entry e] ∧
      e.Len = 5) := by
  obtain ⟨hu, ht⟩ := one_payload_one_entry emptyLog
  obtain ⟨e, h1, _, _, h2, _⟩ := hu (ascii "hello") "10.0.0.1:4000" (by decide)
  obtain ⟨e2, h3, _, _, h4, _⟩ := ht (connOf (ascii "hello")) (by decide) (by decide) (by decide)
    (by decide)
  exact ⟨⟨e, by simpa [emptyLog] using h1, by rw [h2]; decide⟩,
    ⟨e2, by simpa [emptyLog, readErrorLines, connOf] using h3, by rw [h4]; decide⟩⟩

end TestApp
